import Mathlib

/-!
Verification of the concurrent crawl-extract-upload pipeline of the
`web-scrape-hm-ai` repository, against its natural-language specification.

The embedding models Python strings as Lean `String` (logically a `List Char`,
matching Python's sequence-of-code-points semantics).  Python string
primitives used by the code (`str.strip`, `str.split('\n')`, `'\n'.join`,
`str.lower`, `str.upper`, `str.count`) are given explicit executable models
(`pyStrip`, `splitNlData`, `joinNlData`, ...).  The regex-based extractors of
`scraper/transformation/hardcoded_re.py` use a handful of fixed patterns; each
is embedded as a specialized deterministic scanner implementing exactly the
leftmost-match / lazy-group / greedy-class semantics that Python's `re` module
exhibits on that fixed pattern.  Remote GCS state is modeled as
`Option String` / `Option` of a key-value list (`none` = object not found);
Python `dict` is modeled as an insertion-ordered association list.
-/

/-! ## Python string primitives -/

/-- Python's whitespace set for `str.strip` and regex `\s` (ASCII part). -/
def pyIsSpace (c : Char) : Bool :=
  c = ' ' || c = '\t' || c = '\n' || c = '\r' || c = '\x0b' || c = '\x0c'

/-- Python `str.lower` restricted to ASCII plus the Swedish letters appearing
in the repository's fixed regex patterns. -/
def pyToLower (c : Char) : Char :=
  if c = 'Ä' then 'ä' else if c = 'Ö' then 'ö' else if c = 'Å' then 'å' else c.toLower

/-- Python `str.upper` restricted to ASCII plus the Swedish letters appearing
in the repository's texts. -/
def pyToUpper (c : Char) : Char :=
  if c = 'ä' then 'Ä' else if c = 'ö' then 'Ö' else if c = 'å' then 'Å' else c.toUpper

/-- Python `str.strip()` on a list of characters. -/
def pyStripList (l : List Char) : List Char :=
  ((l.dropWhile pyIsSpace).reverse.dropWhile pyIsSpace).reverse

/-- Python `str.strip()`. -/
def pyStrip (s : String) : String :=
  String.mk (pyStripList s.data)

/-- Python `'\n'.join(entries)` on the underlying character lists. -/
def joinNlData : List (List Char) → List Char
  | [] => []
  | [l] => l
  | l :: l₂ :: ls => l ++ '\n' :: joinNlData (l₂ :: ls)

/-- Python `s.split('\n')` on the underlying character list
(`"".split('\n') == [""]`, `"a\n".split('\n') == ["a",""]`). -/
def splitNlData : List Char → List (List Char)
  | [] => [[]]
  | c :: cs =>
    if c = '\n' then [] :: splitNlData cs
    else
      match splitNlData cs with
      | [] => [[c]]
      | g :: gs => (c :: g) :: gs

/-! ## Specialized scanners for the fixed regex patterns -/

/-- Match a literal pattern (case-sensitive) at the start of `cs`,
returning the remainder on success. -/
def matchLit : List Char → List Char → Option (List Char)
  | [], cs => some cs
  | _ :: _, [] => none
  | p :: ps, c :: cs => if c = p then matchLit ps cs else none

/-- Match a literal pattern case-insensitively (pattern given lowercase)
at the start of `cs`, returning the remainder on success. -/
def matchLitCI : List Char → List Char → Option (List Char)
  | [], cs => some cs
  | _ :: _, [] => none
  | p :: ps, c :: cs => if pyToLower c = p then matchLitCI ps cs else none

/-- Regex `\s*`: drop a maximal run of whitespace. -/
def dropWS (cs : List Char) : List Char := cs.dropWhile pyIsSpace

/-- Regex `\s+`: require at least one whitespace character, then drop the
maximal run. -/
def matchWSPlus : List Char → Option (List Char)
  | [] => none
  | c :: cs => if pyIsSpace c then some (dropWS cs) else none

/-- Leftmost-match search: return the result of the matcher at the first
position (scanning left to right) where it succeeds. -/
def findFirstSome {α : Type} (f : List Char → Option α) : List Char → Option α
  | [] => f []
  | cs@(_ :: t) =>
    match f cs with
    | some r => some r
    | none => findFirstSome f t

/-- Lazy group `(.*?)` (DOTALL) followed by a terminator: collect characters
until the first position where the terminator matches; return the collected
group and the remainder after the terminator. -/
def collectUntil {α : Type} (term : List Char → Option α) : List Char → Option (List Char × α)
  | [] => (term []).map (fun r => ([], r))
  | cs@(c :: t) =>
    match term cs with
    | some r => some ([], r)
    | none => (collectUntil term t).map (fun g => (c :: g.1, g.2))

/-! ## Field extractor models (`scraper/transformation/hardcoded_re.py`) -/

/-- The URL part of the image pattern:
`(https://image\.hm\.com/assets/[^\)]+)\)\]`.  Returns the captured URL and
the remainder after the closing `)]`. -/
def matchUrlPart (cs : List Char) : Option (List Char × List Char) :=
  match matchLit "https://image.hm.com/assets/".data cs with
  | none => none
  | some r =>
    let run := r.takeWhile (fun c => c ≠ ')')
    if run.isEmpty then none
    else
      match matchLit ")]".data (r.drop run.length) with
      | none => none
      | some rest => some ("https://image.hm.com/assets/".data ++ run, rest)

/-- After `[![`, the lazy alt text `.*?` (no DOTALL, so it cannot cross a
newline) followed by `](` and the URL part. -/
def imageAfterAlt : List Char → Option (List Char × List Char)
  | [] => none
  | cs@(c :: t) =>
    match (matchLit "](".data cs).bind matchUrlPart with
    | some r => some r
    | none => if c = '\n' then none else imageAfterAlt t

/-- One attempt of the full image pattern
`\[!\[.*?\]\((https://image\.hm\.com/assets/[^\)]+)\)\]` at the start of
`cs`; returns the captured URL and the remainder after the match. -/
def matchImageAt (cs : List Char) : Option (List Char × List Char) :=
  (matchLit "[![".data cs).bind imageAfterAlt

/-- `re.findall` for the image pattern: non-overlapping leftmost matches.
`fuel` bounds the scan; it is instantiated with the text length, which
suffices since every match consumes at least one character. -/
def findImagesGo : Nat → List Char → List (List Char)
  | 0, _ => []
  | _, [] => []
  | fuel + 1, cs@(_ :: t) =>
    match matchImageAt cs with
    | some (cap, rest) => cap :: findImagesGo fuel rest
    | none => findImagesGo fuel t

/-- All captured image URLs of the markdown text, in match order. -/
def findImages (text : String) : List (List Char) :=
  findImagesGo text.data.length text.data

/-- `extract_urls_from_markdown`: takes the first image-pattern match and
strips query parameters (`url.split("?")[0]`).  The Python source indexes
`re.findall(...)[0]`, which raises `IndexError` when there is no match;
the raise is modeled as `Except.error ()`. -/
def extract_urls_from_markdown (text : String) : Except Unit String :=
  match findImages text with
  | [] => .error ()
  | u :: _ => .ok (String.mk (u.takeWhile (fun c => c ≠ '?')))

/-- One attempt of `productpage\.(\d+)\.html` at the start of `cs`. -/
def matchProductIdAt (cs : List Char) : Option (List Char) :=
  match matchLit "productpage.".data cs with
  | none => none
  | some r =>
    let run := r.takeWhile Char.isDigit
    if run.isEmpty then none
    else
      match matchLit ".html".data (r.drop run.length) with
      | none => none
      | some _ => some run

/-- `extract_product_id`: first `productpage\.(\d+)\.html` match, or `none`. -/
def extract_product_id (text : String) : Option String :=
  (findFirstSome matchProductIdAt text.data).map String.mk

/-- Python `html.unescape` restricted to the common named entities relevant
to the scraped markup (the source only relies on `&nbsp;` and the basic XML
entities; all other text is passed through unchanged). -/
def pyHtmlUnescape : Nat → List Char → List Char
  | 0, cs => cs
  | _, [] => []
  | fuel + 1, cs@(c :: t) =>
    match matchLit "&nbsp;".data cs with
    | some r => '\xa0' :: pyHtmlUnescape fuel r
    | none =>
    match matchLit "&amp;".data cs with
    | some r => '&' :: pyHtmlUnescape fuel r
    | none =>
    match matchLit "&lt;".data cs with
    | some r => '<' :: pyHtmlUnescape fuel r
    | none =>
    match matchLit "&gt;".data cs with
    | some r => '>' :: pyHtmlUnescape fuel r
    | none =>
    match matchLit "&quot;".data cs with
    | some r => '"' :: pyHtmlUnescape fuel r
    | none => c :: pyHtmlUnescape fuel t

/-- Start marker of `between_size_and_material`: `välj\s+storlek`. -/
def bsmStart (cs : List Char) : Option (List Char) :=
  ((matchLitCI "välj".data cs).bind matchWSPlus).bind (matchLitCI "storlek".data)

/-- End marker of `between_size_and_material`:
`\s*(?:ytterligare\s+materialinformation|förklaring\s+av\s+materialen|skötselråd)`. -/
def bsmTerm (cs : List Char) : Option (List Char) :=
  let r := dropWS cs
  match ((matchLitCI "ytterligare".data r).bind matchWSPlus).bind
      (matchLitCI "materialinformation".data) with
  | some rest => some rest
  | none =>
  match ((((matchLitCI "förklaring".data r).bind matchWSPlus).bind
      (matchLitCI "av".data)).bind matchWSPlus).bind (matchLitCI "materialen".data) with
  | some rest => some rest
  | none => matchLitCI "skötselråd".data r

/-- `between_size_and_material`: the source normalizes the text
(`html.unescape`, `\xa0 → ' '`), searches the lowered copy for the pattern,
then re-runs the same pattern case-insensitively on the (non-lowered)
normalized text to extract the original-case span.  Both searches use the
same case-insensitive criterion, so they find the same span; the model runs
the case-insensitive search once on the normalized text.  On a match it
returns `"välj storlek " + group(1).strip()`, otherwise `none`. -/
def between_size_and_material (text : String) : Option String :=
  let t := (pyHtmlUnescape text.data.length text.data).map
    (fun c => if c = '\xa0' then ' ' else c)
  match findFirstSome bsmStart t with
  | none => none
  | some afterStart =>
    match collectUntil bsmTerm afterStart with
    | none => none
    | some (g, _) => some ("välj storlek " ++ String.mk (pyStripList g))

/-- Start marker of the price section: the literal
`Inte sparat i favoriter`, case-insensitively. -/
def priceStart (cs : List Char) : Option (List Char) :=
  matchLitCI "inte sparat i favoriter".data cs

/-- End marker of the price section: `\s*(?:##\s*)?Färg:`, case-insensitively. -/
def priceTerm (cs : List Char) : Option (List Char) :=
  let r := dropWS cs
  match matchLit "##".data r with
  | some r2 => matchLitCI "färg:".data (dropWS r2)
  | none => matchLitCI "färg:".data r

/-- Group(1) of `Inte sparat i favoriter\s*(.*?)\s*(?:##\s*)?Färg:` with
`re.DOTALL | re.IGNORECASE`, before `.strip()`; `none` when the pattern has
no match. -/
def findPriceSection (text : String) : Option (List Char) :=
  match findFirstSome priceStart text.data with
  | none => none
  | some afterStart => (collectUntil priceTerm afterStart).map (fun g => g.1)

/-- One attempt of the price pattern `(\d+,\d{2})\s*kr` at the start of `cs`;
returns the captured `\d+,\d{2}` part and the remainder after `kr`. -/
def matchPriceAt (cs : List Char) : Option (List Char × List Char) :=
  let run := cs.takeWhile Char.isDigit
  if run.isEmpty then none
  else
    match cs.drop run.length with
    | ',' :: d1 :: d2 :: rest =>
      if d1.isDigit && d2.isDigit then
        match matchLit "kr".data (dropWS rest) with
        | some rest2 => some (run ++ ',' :: d1 :: [d2], rest2)
        | none => none
      else none
    | _ => none

/-- `re.findall` for the price pattern: non-overlapping leftmost matches.
`fuel` is instantiated with the text length, which suffices since every
match consumes at least one character. -/
def findPricesGo : Nat → List Char → List (List Char)
  | 0, _ => []
  | _, [] => []
  | fuel + 1, cs@(_ :: t) =>
    match matchPriceAt cs with
    | some (cap, rest) => cap :: findPricesGo fuel rest
    | none => findPricesGo fuel t

/-- All captured prices of a section, in match order. -/
def findPrices (cs : List Char) : List (List Char) :=
  findPricesGo cs.length cs

/-- Numeric value of a list of ASCII digits. -/
def digitsToNat (l : List Char) : Nat :=
  l.foldl (fun n c => 10 * n + (c.toNat - 48)) 0

/-- Python `float(p.replace(',', '.'))` for a captured price `\d+,\d{2}`,
as an exact rational. -/
def parsePrice (p : List Char) : ℚ :=
  let intPart := digitsToNat (p.takeWhile (fun c => c ≠ ','))
  let frac := digitsToNat (p.drop ((p.takeWhile (fun c => c ≠ ',')).length + 1))
  ((intPart : ℚ) * 100 + (frac : ℚ)) / 100

/-- Python `round` (banker's rounding: ties go to the even integer). -/
def pyRound (q : ℚ) : ℤ :=
  if q - (⌊q⌋ : ℚ) < 1 / 2 then ⌊q⌋
  else if q - (⌊q⌋ : ℚ) > 1 / 2 then ⌊q⌋ + 1
  else if ⌊q⌋ % 2 = 0 then ⌊q⌋ else ⌊q⌋ + 1

/-- `extract_price_info`: prices of the marker-bounded section.
Zero prices → `(none, none, "no discount")`; one price → it is the original;
two or more → first discounted, second original, rounded percentage. -/
def extract_price_info (text : String) : Option ℚ × Option ℚ × String :=
  match findPriceSection text with
  | none => (none, none, "no discount")
  | some g =>
    match findPrices (pyStripList g) with
    | [] => (none, none, "no discount")
    | [p] => (none, some (parsePrice p), "no discount")
    | p1 :: p2 :: _ =>
      (some (parsePrice p1), some (parsePrice p2),
        toString (pyRound ((parsePrice p2 - parsePrice p1) / parsePrice p2 * 100)) ++ "%")

/-- Fixed vocabulary of `count_most_frequent_word`, in the dict insertion
order the source iterates in. -/
def target_words : List String := ["DAM", "HERR", "BARN", "HOME", "BEAUTY"]

/-- Python `haystack.count(needle)`: number of non-overlapping occurrences,
scanning left to right.  `fuel` is instantiated with the haystack length. -/
def countOccGo (needle : List Char) : Nat → List Char → Nat
  | 0, _ => 0
  | _, [] => 0
  | fuel + 1, hay@(_ :: t) =>
    if needle.isPrefixOf hay then 1 + countOccGo needle fuel (hay.drop needle.length)
    else countOccGo needle fuel t

/-- Python `haystack.count(needle)` for a nonempty needle. -/
def countOcc (needle hay : List Char) : Nat :=
  countOccGo needle hay.length hay

/-- Python `max(iterable_of_pairs, key=snd)`: the first pair attaining the
maximal second component (later pairs replace the best only on a strict
increase). -/
def pyMaxBy : (String × Nat) → List (String × Nat) → (String × Nat)
  | best, [] => best
  | best, x :: xs => pyMaxBy (if x.2 > best.2 then x else best) xs

/-- The value Python returns from `count_most_frequent_word`: either a bare
string (some word had a positive count) or the literal tuple `(None, 0)`
(all counts are zero).  `noneV` (a bare `None`) is included so that the
specification's claimed null return is expressible; the source never
produces it. -/
inductive GenderOut where
  | noneV : GenderOut
  | strV : String → GenderOut
  | pairV : Option String → Nat → GenderOut
  deriving DecidableEq

/-- Per-word counts over the upper-cased text, in vocabulary order. -/
def genderCounts (text : String) : List (String × Nat) :=
  target_words.map (fun w => (w, countOcc w.data (text.data.map pyToUpper)))

/-- `count_most_frequent_word`: counts each vocabulary word in
`text.upper()`; if all counts are zero returns the tuple `(None, 0)`,
otherwise the first word attaining the maximal count. -/
def count_most_frequent_word (text : String) : GenderOut :=
  if (genderCounts text).all (fun p => p.2 = 0) then .pairV none 0
  else .strV (match genderCounts text with
    | [] => ""
    | c :: cs => (pyMaxBy c cs).1)

/-- Modelled from the spec (refinement reference for C8): `classifyGender`
returns the highest-count vocabulary token, ties broken by vocabulary order,
and `null` when all counts are zero. -/
def specClassifyGender (text : String) : Option String :=
  if (target_words.map (fun w => countOcc w.data (text.data.map pyToUpper))).foldr max 0 = 0
  then none
  else target_words.find? (fun w =>
    countOcc w.data (text.data.map pyToUpper) =
      (target_words.map (fun w => countOcc w.data (text.data.map pyToUpper))).foldr max 0)

/-! ## Merge-on-Write Store models (`scraper/gcp/gcp_bucket.py`) -/

/-- Lexicographic comparison of character lists: Python's `<=` on strings
(code-point order). -/
def charListLe : List Char → List Char → Bool
  | [], _ => true
  | _ :: _, [] => false
  | a :: as, b :: bs => if a < b then true else if b < a then false else charListLe as bs

/-- Python string comparison, as used by `sorted`. -/
def pyStrLe (a b : String) : Bool := charListLe a.data b.data

/-- The set of URLs parsed from a downloaded `urls.txt` state
(`set(existing_content.strip().split('\n')) if existing_content.strip()
else set()`); `none` models `exceptions.NotFound` and is treated as empty.
The Python set is modeled as a duplicate-free list. -/
def parseUrlState : Option String → List String
  | none => []
  | some c =>
    if pyStrip c = "" then []
    else ((splitNlData (pyStrip c).data).map String.mk).dedup

/-- Serialization of the merged URL set: `"\n".join(sorted(all_urls))`.
`sorted` on a set of distinct strings is fully determined by the code-point
order, here realized by insertion sort. -/
def serializeUrls (urls : List String) : String :=
  String.mk (joinNlData ((urls.insertionSort (fun a b => pyStrLe a b = true)).map
    String.data))

/-- `upload_urls_to_gcs`: returns the persisted state after the call
(`if not urls: return` leaves the remote object untouched; otherwise the
downloaded state is unioned with the new URLs — append plus deduplication
on the list model of sets — blank entries are removed, and the sorted
newline-joined text is uploaded). -/
def upload_urls_to_gcs (urls : List String) (st : Option String) : Option String :=
  if urls.isEmpty then st
  else some (serializeUrls (((parseUrlState st ++ urls).dedup).filter
    (fun u => pyStrip u ≠ "")))

/-- Well-formedness of a URL entry: empty, or free of embedded newlines with
non-whitespace boundary characters (so that it survives the store's
strip/split/join round trip unchanged). -/
def wfUrl (u : String) : Bool :=
  u.data.isEmpty ||
  (decide ('\n' ∉ u.data) && !pyIsSpace (u.data.headD 'x') && !pyIsSpace (u.data.getLastD 'x'))

/-- Python `d[k] = v` on an insertion-ordered association list: an existing
key keeps its position and gets the new value; a new key is appended. -/
def dictSet {α : Type} (m : List (String × α)) (k : String) (v : α) : List (String × α) :=
  if m.any (fun p => p.1 = k) then
    m.map (fun p => if p.1 = k then (k, v) else p)
  else m ++ [(k, v)]

/-- Python `base.update(new)`: each entry of `new` is written into `base`
in order (new entries overwrite existing ones for the same key). -/
def dictUpdate {α : Type} (base new : List (String × α)) : List (String × α) :=
  new.foldl (fun acc p => dictSet acc p.1 p.2) base

/-- Python `dict` lookup on the association-list model. -/
def dictGet {α : Type} (m : List (String × α)) (k : String) : Option α :=
  (m.find? (fun p => p.1 = k)).map (fun p => p.2)

/-- `upload_image_mapping_to_gcs`: returns the success flag and the
persisted state after the call.  `if not mapping_dict: return True` leaves
the remote object untouched; otherwise the downloaded mapping (empty when
the object does not exist) is dict-updated with the new entries and the
merged JSON is uploaded. -/
def upload_image_mapping_to_gcs {α : Type} (mapping : List (String × α))
    (st : Option (List (String × α))) : Bool × Option (List (String × α)) :=
  if mapping.isEmpty then (true, st)
  else
    let existing := st.getD []
    (true, some (dictUpdate existing mapping))

/-! ## Batch scheduler models (`scraper/product_api.py`) -/

/-- `create_batches`: consecutive slices `items[i:i+batch_size]` for
`i in range(0, len(items), batch_size)`.  Python's `range` raises
`ValueError` on step 0; callers validate `batch_size ≥ 1`, and the model
returns no batches for step 0. -/
def create_batches {α : Type} : List α → Nat → List (List α)
  | [], _ => []
  | _ :: _, 0 => []
  | x :: xs, b + 1 =>
    (x :: xs).take (b + 1) :: create_batches ((x :: xs).drop (b + 1)) (b + 1)
  termination_by l _ => l.length
  decreasing_by simp only [List.drop_succ_cons, List.length_drop, List.length_cons]; omega

/-- The aggregation loop of `process_hm_products`: each batch is processed
(`asyncio.gather` preserves positional order; a per-item failure yields
`None` in place), and batch results are appended in batch order.  `f` is the
per-item worker; `none` models a failed item. -/
def runBatches {α β : Type} (items : List α) (batchSize : Nat) (f : α → Option β) :
    List (Option β) :=
  ((create_batches items batchSize).map (fun batch => batch.map f)).flatten

/-! ## Retry-wrapped fetcher model (`crawl_url` in `scraper/product_api.py`) -/

/-- Outcome of one `crawler.arun` call: an exception, an unsuccessful
result (`result.success == False`), or a successful result with the page
markdown. -/
inductive ArunOutcome where
  | araise : ArunOutcome
  | afail : String → ArunOutcome
  | asuccess : String → ArunOutcome

/-- The external LLM structuring call (collaborator boundary): a total
function of the extracted content and the side-channel scalar fields. -/
def LLMFn : Type :=
  String → Option String → Option ℚ → Option ℚ → String → GenderOut → String

/-- The body of `crawl_url` executed on a successful fetch: extraction
pattern miss returns `None` to the caller; a raise from
`extract_urls_from_markdown` (no image match) propagates as an exception
into the retry loop's `except` handler. -/
def successBody (url md : String) (llm : LLMFn) : Except Unit (Option String) :=
  match between_size_and_material md with
  | none => .ok none
  | some extracted =>
    let articleId := extract_product_id url
    match extract_urls_from_markdown md with
    | .error _ => .error ()
    | .ok _ =>
      let p := extract_price_info md
      .ok (some (llm extracted articleId p.1 p.2.1 p.2.2 (count_most_frequent_word md)))

/-- Observable result of one `crawl_url` call: the returned value, the
backoff sleeps performed (in seconds, in order), and the number of
`crawler.arun` invocations. -/
structure CrawlRun where
  result : Option String
  sleeps : List Nat
  fetches : Nat
  deriving DecidableEq

/-- The retry loop of `crawl_url`, from attempt number `attempt` with
`r` attempts remaining.  On an exception (transport raise or a raise inside
the success body) at a non-final attempt it sleeps `2 ^ attempt` and
retries; on an unsuccessful result it retries immediately (the source has
no sleep on that path); after the final failed attempt it returns `None`. -/
def crawlGo (url : String) (llm : LLMFn) (o : Nat → ArunOutcome) :
    Nat → Nat → CrawlRun
  | _, 0 => ⟨none, [], 0⟩
  | attempt, r + 1 =>
    match o attempt with
    | .asuccess md =>
      match successBody url md llm with
      | .ok v => ⟨v, [], 1⟩
      | .error _ =>
        if r = 0 then ⟨none, [], 1⟩
        else
          let rest := crawlGo url llm o (attempt + 1) r
          ⟨rest.result, 2 ^ attempt :: rest.sleeps, rest.fetches + 1⟩
    | .afail _ =>
      if r = 0 then ⟨none, [], 1⟩
      else
        let rest := crawlGo url llm o (attempt + 1) r
        ⟨rest.result, rest.sleeps, rest.fetches + 1⟩
    | .araise =>
      if r = 0 then ⟨none, [], 1⟩
      else
        let rest := crawlGo url llm o (attempt + 1) r
        ⟨rest.result, 2 ^ attempt :: rest.sleeps, rest.fetches + 1⟩

/-- `crawl_url` with its default `max_retries`; `o` gives the outcome of
the `attempt`-th `crawler.arun` call. -/
def crawl_url (url : String) (llm : LLMFn) (o : Nat → ArunOutcome)
    (maxRetries : Nat) : CrawlRun :=
  crawlGo url llm o 0 maxRetries

/-- Attempt `i` ended in the `except` handler (transport raise, or a raise
inside the success body). -/
def attemptRaised (url : String) (llm : LLMFn) (o : Nat → ArunOutcome) (i : Nat) : Bool :=
  match o i with
  | .araise => true
  | .afail _ => false
  | .asuccess md =>
    match successBody url md llm with
    | .error _ => true
    | .ok _ => false

/-- Attempt `i` did not produce a return value (raise, unsuccessful result,
or a raise inside the success body). -/
def attemptFailed (url : String) (llm : LLMFn) (o : Nat → ArunOutcome) (i : Nat) : Bool :=
  match o i with
  | .araise => true
  | .afail _ => true
  | .asuccess md =>
    match successBody url md llm with
    | .error _ => true
    | .ok _ => false

/-! ## Session tracker model (`process_hm_products` in `scraper/product_api.py`) -/

/-- Counter events of a processing session: `sbegin i` is the
`_active_sessions += 1` performed under `_sessions_lock` at entry of
session `i`; `send i` is the `_active_sessions -= 1` performed under the
same lock in the `finally` clause. -/
inductive SessEv where
  | sbegin : Nat → SessEv
  | send : Nat → SessEv
  deriving DecidableEq

/-- The session a counter event belongs to. -/
def sessOf : SessEv → Nat
  | .sbegin i => i
  | .send i => i

/-- Whether a counter event is an increment. -/
def isBeginEv : SessEv → Bool
  | .sbegin _ => true
  | .send _ => false

/-- The exit path taken by one `process_hm_products` call: the early
`return` on an invalid index range, a normal return, or an exception
propagating out of the `try` block. -/
inductive ExitPath where
  | invalidRange : ExitPath
  | normal : ExitPath
  | raised : ExitPath

/-- The counter events emitted by one `process_hm_products` call along exit
path `p`: the increment at entry, no counter operation anywhere in the
`try` body (regardless of path), and the decrement in the `finally` clause,
which Python runs on every exit path including exceptions. -/
def process_session_trace (i : Nat) (p : ExitPath) : List SessEv :=
  SessEv.sbegin i ::
    (match p with
      | .invalidRange => []
      | .normal => []
      | .raised => []) ++ [SessEv.send i]

/-- Contribution of one counter event to `_active_sessions`. -/
def evSign (e : SessEv) : Int :=
  if isBeginEv e then 1 else -1

/-- `_active_sessions` after running the events of `t` from value `c`. -/
def activeAfter (c : Int) (t : List SessEv) : Int :=
  t.foldl (fun a e => a + evSign e) c

/-! ## HTTP front controller model (`process_endpoint` in `scraper/product_api.py`) -/

/-- Response body category of `POST /process` (payload details of the
processing summary are outside this model). -/
inductive ProcResponse where
  | badRequest : String → ProcResponse
  | invalidRange : String → ProcResponse
  | processed : ProcResponse
  deriving DecidableEq

/-- `POST /process` validation and dispatch, given already-parsed integer
fields and the current persisted URL count: the endpoint's three 400
validations in source order, then `process_hm_products`' own index check
against the downloaded URL list, whose failure dict is returned by the
endpoint with `jsonify(result)` — HTTP status 200. -/
def process_endpoint_model (startIndex endIndex batchSize : Int) (urlCount : Nat) :
    Nat × ProcResponse :=
  if startIndex < 0 ∨ endIndex < startIndex then
    (400, .badRequest "Invalid index range. start_index must be >= 0 and end_index must be >= start_index")
  else if endIndex - startIndex + 1 > 100 then
    (400, .badRequest "Index range too large. Maximum 100 URLs per request")
  else if batchSize < 1 ∨ batchSize > 20 then
    (400, .badRequest "batch_size must be between 1 and 20")
  else if startIndex < 0 ∨ endIndex ≥ (urlCount : Int) ∨ startIndex > endIndex then
    (200, .invalidRange ("Invalid index range. Available URLs: 0-" ++ toString ((urlCount : Int) - 1)))
  else (200, .processed)

/-! ## Process-wide image-mapping accumulator (`_global_image_mapping`) -/

/-- One `_global_image_mapping[article_id] = url_image` performed (under
`_image_mapping_lock`) by `crawl_url` on behalf of some session. -/
structure RecordEv where
  session : String
  articleId : String
  imageUrl : String
  deriving DecidableEq

/-- The process-wide `_global_image_mapping` after a sequence of record
events (module-level dict, created empty at import time and never cleared). -/
def globalImageMapping (events : List RecordEv) : List (String × String) :=
  events.foldl (fun m e => dictSet m e.articleId e.imageUrl) []

/-- The mapping `process_hm_products` passes to
`upload_image_mapping_to_gcs` at the end of a session: the whole
accumulator, guarded by `if _global_image_mapping:` (no upload when it is
empty). -/
def sessionUploadPayload (events : List RecordEv) : Option (List (String × String)) :=
  let m := globalImageMapping events
  if m.isEmpty then none else some m

/-- The most recently recorded image URL for a key, over an event sequence. -/
def lastRecorded (events : List RecordEv) (k : String) : Option String :=
  (events.reverse.find? (fun e => e.articleId = k)).map (fun e => e.imageUrl)

/-! ## Theorems -/

theorem create_batches_flatten_aux {α : Type} :
    ∀ (n : Nat) (l : List α), l.length ≤ n → ∀ b : Nat,
      (create_batches l (b + 1)).flatten = l := by
  intro n
  induction n with
  | zero =>
    intro l hl b
    have : l = [] := List.length_eq_zero.mp (Nat.le_zero.mp hl)
    subst this
    simp [create_batches]
  | succ n ih =>
    intro l hl b
    cases l with
    | nil => simp [create_batches]
    | cons x xs =>
      rw [create_batches, List.flatten_cons, ih _ (by simp at hl ⊢; omega) b,
        List.take_append_drop]

theorem create_batches_flatten {α : Type} (l : List α) (b : Nat) (hb : 1 ≤ b) :
    (create_batches l b).flatten = l := by
  obtain ⟨b', rfl⟩ : ∃ b', b = b' + 1 := ⟨b - 1, by omega⟩
  exact create_batches_flatten_aux l.length l le_rfl b'

theorem create_batches_length_aux {α : Type} :
    ∀ (n : Nat) (l : List α), l.length ≤ n → ∀ b : Nat,
      (create_batches l (b + 1)).length = (l.length + b) / (b + 1) := by
  intro n
  induction n with
  | zero =>
    intro l hl b
    have : l = [] := List.length_eq_zero.mp (Nat.le_zero.mp hl)
    subst this
    have hz : b / (b + 1) = 0 := Nat.div_eq_of_lt (by omega)
    simp [create_batches, hz]
  | succ n ih =>
    intro l hl b
    cases l with
    | nil =>
      have hz : b / (b + 1) = 0 := Nat.div_eq_of_lt (by omega)
      simp [create_batches, hz]
    | cons x xs =>
      rw [create_batches, List.length_cons,
        ih _ (by simp at hl ⊢; omega) b]
      rcases Nat.lt_or_ge xs.length (b + 1) with h | h
      · have h1 : ((x :: xs).drop (b + 1)).length = 0 := by
          simp only [List.drop_succ_cons, List.length_drop]
          omega
        have h2 : (((x :: xs).drop (b + 1)).length + b) / (b + 1) = 0 :=
          Nat.div_eq_of_lt (by omega)
        have h3 : (xs.length + 1 + b) / (b + 1) = 1 :=
          Nat.div_eq_of_lt_le (k := 1) (by omega) (by omega)
        rw [h2, List.length_cons, h3]
      · have h1 : ((x :: xs).drop (b + 1)).length = xs.length - b := by
          simp only [List.drop_succ_cons, List.length_drop]
        rw [h1, List.length_cons]
        have h2 : xs.length + 1 + b = xs.length - b + b + (b + 1) := by omega
        rw [h2, Nat.add_div_right _ (by omega)]

theorem create_batches_shape_aux {α : Type} :
    ∀ (n : Nat) (l : List α), l.length ≤ n → ∀ b : Nat,
      ∀ c ∈ create_batches l (b + 1), c ≠ [] ∧ c.length ≤ b + 1 := by
  intro n
  induction n with
  | zero =>
    intro l hl b c hc
    have : l = [] := List.length_eq_zero.mp (Nat.le_zero.mp hl)
    subst this
    simp [create_batches] at hc
  | succ n ih =>
    intro l hl b c hc
    cases l with
    | nil => simp [create_batches] at hc
    | cons x xs =>
      rw [create_batches] at hc
      rcases List.mem_cons.mp hc with h | h
      · subst h
        refine ⟨by simp [List.take_cons], ?_⟩
        rw [List.length_take]
        exact min_le_left _ _
      · exact ih _ (by simp at hl ⊢; omega) b c h

/-- C2: for every batch size `b ≥ 1` and item list, the scheduler produces
`⌈n/b⌉` consecutive batches (each nonempty of size at most `b`, jointly a
partition of the input), and the aggregated results equal the item list
mapped through the per-item worker — so results are in input order, a
per-item failure (`none`) keeps its position without stopping later
batches, and `len(results) = len(items)`. -/
theorem batch_scheduler_correct {α β : Type} (items : List α) (b : Nat)
    (f : α → Option β) (hb : 1 ≤ b) :
    (create_batches items b).length = (items.length + b - 1) / b ∧
    (∀ c ∈ create_batches items b, c ≠ [] ∧ c.length ≤ b) ∧
    runBatches items b f = items.map f ∧
    (runBatches items b f).length = items.length := by
  obtain ⟨b', rfl⟩ : ∃ b', b = b' + 1 := ⟨b - 1, by omega⟩
  have hflat := create_batches_flatten_aux (α := α) items.length items le_rfl b'
  have hmap : runBatches items (b' + 1) f = items.map f := by
    rw [runBatches, ← List.map_flatten, hflat]
  refine ⟨?_, create_batches_shape_aux items.length items le_rfl b', hmap, ?_⟩
  · rw [create_batches_length_aux items.length items le_rfl b']
    congr 1
  · rw [hmap, List.length_map]

/-- Witness for C2 at a concrete input: batch size 2 over five items with a
failure at the third item. -/
theorem batch_scheduler_correct_witness :
    1 ≤ 2 ∧
    runBatches [1, 2, 3, 4, 5] 2 (fun n => if n = 3 then none else some n) =
      [some 1, some 2, none, some 4, some 5] := by
  refine ⟨by decide, ?_⟩
  have h := (batch_scheduler_correct [1, 2, 3, 4, 5] 2
    (fun n => if n = 3 then none else some n) (by decide)).2.2.1
  rw [h]
  decide

theorem find?_map_overwrite_self {α : Type} (m : List (String × α)) (k : String) (v : α)
    (hany : m.any (fun p => p.1 = k) = true) :
    (m.map (fun p => if p.1 = k then (k, v) else p)).find? (fun p => p.1 = k) = some (k, v) := by
  induction m with
  | nil => simp at hany
  | cons q m ih =>
    by_cases hq : q.1 = k
    · rw [List.map_cons, if_pos hq, List.find?_cons_of_pos _ (by simp)]
    · have hm : m.any (fun p => p.1 = k) = true := by
        simp only [List.any_cons, decide_eq_false hq, Bool.false_or] at hany
        exact hany
      rw [List.map_cons, if_neg hq, List.find?_cons_of_neg _ (by simp [hq])]
      exact ih hm

theorem find?_map_overwrite_other {α : Type} (m : List (String × α)) (k k' : String) (v : α)
    (hne : k' ≠ k) :
    (m.map (fun p => if p.1 = k then (k, v) else p)).find? (fun p => p.1 = k') =
      m.find? (fun p => p.1 = k') := by
  induction m with
  | nil => rfl
  | cons q m ih =>
    by_cases hq : q.1 = k
    · rw [List.map_cons, if_pos hq,
        List.find?_cons_of_neg _ (by simp; exact fun h => hne h.symm),
        List.find?_cons_of_neg _ (by simp; intro h; apply hne; rw [← h, hq])]
      exact ih
    · rw [List.map_cons, if_neg hq]
      by_cases hq' : q.1 = k'
      · rw [List.find?_cons_of_pos _ (by simp [hq']), List.find?_cons_of_pos _ (by simp [hq'])]
      · rw [List.find?_cons_of_neg _ (by simp [hq']), List.find?_cons_of_neg _ (by simp [hq'])]
        exact ih

theorem dictGet_dictSet {α : Type} (m : List (String × α)) (k k' : String) (v : α) :
    dictGet (dictSet m k v) k' = if k' = k then some v else dictGet m k' := by
  by_cases hc : m.any (fun p => p.1 = k) = true
  · rw [dictSet, if_pos hc]
    by_cases hk : k' = k
    · subst hk
      rw [dictGet, find?_map_overwrite_self m k' v hc, if_pos rfl]
      rfl
    · rw [dictGet, find?_map_overwrite_other m k k' v hk, if_neg hk, dictGet]
  · rw [dictSet, if_neg hc]
    have hnone : m.find? (fun p => p.1 = k) = none := by
      rw [List.find?_eq_none]
      intro p hp hpk
      simp only [decide_eq_true_eq] at hpk
      exact hc (List.any_eq_true.mpr ⟨p, hp, by simp [hpk]⟩)
    by_cases hk : k' = k
    · subst hk
      rw [dictGet, List.find?_append, hnone, Option.none_or,
        List.find?_cons_of_pos _ (by simp), if_pos rfl]
      rfl
    · rw [dictGet, List.find?_append, if_neg hk,
        List.find?_cons_of_neg _ (by simp; exact fun h => hk h.symm)]
      rw [List.find?_nil, Option.or_none, dictGet]

theorem dictGet_dictUpdate_single {α : Type} (base : List (String × α)) (k k' : String)
    (v : α) :
    dictGet (dictUpdate base [(k, v)]) k' = if k' = k then some v else dictGet base k' := by
  rw [dictUpdate, List.foldl_cons, List.foldl_nil]
  exact dictGet_dictSet base k k' v

/-- C3: an ImageMapping write of `{X: v1}` followed by `{X: v2}`, against an
existing persisted mapping that binds some other key `Y`, succeeds and
persists the dict-update of the new entries over the downloaded state: the
final value for `X` is `v2` (later write wins) and the binding for `Y` is
preserved unchanged. -/
theorem image_mapping_last_write_wins {α : Type} (M0 : List (String × α)) (X Y : String)
    (vy v1 v2 : α) (hne : Y ≠ X) (hY : dictGet M0 Y = some vy) :
    upload_image_mapping_to_gcs [(X, v1)] (some M0) = (true, some (dictSet M0 X v1)) ∧
    upload_image_mapping_to_gcs [(X, v2)]
        (upload_image_mapping_to_gcs [(X, v1)] (some M0)).2 =
      (true, some (dictSet (dictSet M0 X v1) X v2)) ∧
    dictGet (dictSet (dictSet M0 X v1) X v2) X = some v2 ∧
    dictGet (dictSet (dictSet M0 X v1) X v2) Y = some vy := by
  have h1 : upload_image_mapping_to_gcs [(X, v1)] (some M0) =
      (true, some (dictSet M0 X v1)) := by
    rw [upload_image_mapping_to_gcs]
    simp [dictUpdate]
  have h2 : upload_image_mapping_to_gcs [(X, v2)] (some (dictSet M0 X v1)) =
      (true, some (dictSet (dictSet M0 X v1) X v2)) := by
    rw [upload_image_mapping_to_gcs]
    simp [dictUpdate]
  refine ⟨h1, by rw [h1]; exact h2, ?_, ?_⟩
  · rw [dictGet_dictSet, if_pos rfl]
  · rw [dictGet_dictSet, if_neg hne, dictGet_dictSet, if_neg hne, hY]

/-- Witness for C3 at a concrete input: existing mapping `{Y: 7}`, writes
`{X: 1}` then `{X: 2}`. -/
theorem image_mapping_last_write_wins_witness :
    ("Y" ≠ "X" ∧ dictGet [("Y", 7)] "Y" = some 7) ∧
    dictGet (dictSet (dictSet [("Y", 7)] "X" 1) "X" 2) "X" = some 2 ∧
    dictGet (dictSet (dictSet [("Y", 7)] "X" 1) "X" 2) "Y" = some 7 := by
  refine ⟨⟨by decide, by decide⟩, ?_⟩
  have h := image_mapping_last_write_wins [("Y", 7)] "X" "Y" 7 1 2 (by decide) (by decide)
  exact ⟨h.2.2.1, h.2.2.2⟩

theorem takeWhile_append_all {α : Type} (p : α → Bool) (l₁ l₂ : List α)
    (h : ∀ c ∈ l₁, p c = true) :
    (l₁ ++ l₂).takeWhile p = l₁ ++ l₂.takeWhile p := by
  induction l₁ with
  | nil => rfl
  | cons c l ih =>
    rw [List.cons_append, List.takeWhile_cons, h c (List.mem_cons_self _ _),
      if_pos rfl, List.cons_append, ih (fun d hd => h d (List.mem_cons_of_mem _ hd))]

theorem matchUrlPart_shape (cs cap rest : List Char)
    (h : matchUrlPart cs = some (cap, rest)) :
    ∃ run, run ≠ [] ∧ (∀ c ∈ run, c ≠ ')') ∧
      cap = "https://image.hm.com/assets/".data ++ run := by
  rw [matchUrlPart] at h
  split at h
  · cases h
  · next r _ =>
    by_cases hrun : (r.takeWhile (fun c => c ≠ ')')).isEmpty
    · rw [if_pos hrun] at h
      cases h
    · rw [if_neg hrun] at h
      split at h
      · cases h
      · next rest2 _ =>
        refine ⟨r.takeWhile (fun c => c ≠ ')'), ?_, ?_, ?_⟩
        · intro he
          rw [he] at hrun
          exact hrun rfl
        · intro c hc
          have := List.mem_takeWhile_imp hc
          simpa using this
        · cases h
          rfl

theorem imageAfterAlt_shape : ∀ (cs cap rest : List Char),
    imageAfterAlt cs = some (cap, rest) →
    ∃ cs', matchUrlPart cs' = some (cap, rest) := by
  intro cs
  induction cs with
  | nil => intro cap rest h; cases h
  | cons c t ih =>
    intro cap rest h
    rw [imageAfterAlt] at h
    split at h
    · next r hr =>
      cases h
      rcases Option.bind_eq_some.mp hr with ⟨r1, _, hu⟩
      exact ⟨r1, hu⟩
    · next hr =>
      by_cases hc : c = '\n'
      · rw [if_pos hc] at h
        cases h
      · rw [if_neg hc] at h
        exact ih cap rest h

theorem matchImageAt_shape (cs cap rest : List Char)
    (h : matchImageAt cs = some (cap, rest)) :
    ∃ cs', matchUrlPart cs' = some (cap, rest) := by
  rw [matchImageAt] at h
  rcases Option.bind_eq_some.mp h with ⟨r1, _, hu⟩
  exact imageAfterAlt_shape r1 cap rest hu

theorem findImagesGo_shape : ∀ (fuel : Nat) (cs : List Char) (u : List Char),
    u ∈ findImagesGo fuel cs →
    ∃ cs' rest, matchUrlPart cs' = some (u, rest) := by
  intro fuel
  induction fuel with
  | zero => intro cs u h; simp [findImagesGo] at h
  | succ fuel ih =>
    intro cs u h
    cases cs with
    | nil => simp [findImagesGo] at h
    | cons c t =>
      rw [findImagesGo] at h
      split at h
      · rename_i cap rest hm
        rcases List.mem_cons.mp h with h1 | h1
        · subst h1
          obtain ⟨cs', hcs'⟩ := matchImageAt_shape _ u rest hm
          exact ⟨cs', rest, hcs'⟩
        · exact ih rest u h1
      · exact ih t u h

/-- C9: `extract_urls_from_markdown` on markup with at least one
link-wrapped-image match returns the first matched image URL with query
parameters stripped (and that URL still carries the fixed host prefix);
on markup with no match it fails loudly (the `[0]` index raise, modeled as
`Except.error`) instead of returning a value. -/
theorem extract_image_url_spec (text : String) :
    (findImages text = [] → extract_urls_from_markdown text = .error ()) ∧
    (∀ u rest, findImages text = u :: rest →
      extract_urls_from_markdown text =
        .ok (String.mk (u.takeWhile (fun c => c ≠ '?'))) ∧
      ∃ tail, u.takeWhile (fun c => c ≠ '?') =
        "https://image.hm.com/assets/".data ++ tail) := by
  constructor
  · intro h
    rw [extract_urls_from_markdown, h]
  · intro u rest h
    constructor
    · rw [extract_urls_from_markdown, h]
    · have hu : u ∈ findImages text := by rw [h]; exact List.mem_cons_self _ _
      obtain ⟨cs', rest', hmatch⟩ := findImagesGo_shape text.data.length text.data u hu
      obtain ⟨run, hrun_ne, hrun_no_paren, hcap⟩ := matchUrlPart_shape cs' u rest' hmatch
      rw [hcap, takeWhile_append_all _ _ _ (by decide)]
      exact ⟨run.takeWhile (fun c => c ≠ '?'), rfl⟩

/-- Witness for C9 at concrete inputs: markup with one image match, and the
stripped URL it returns. -/
theorem extract_image_url_spec_witness :
    (findImages "[![alt](https://image.hm.com/assets/hm/x.jpg?imwidth=700)](https://p.html)" =
      ["https://image.hm.com/assets/hm/x.jpg?imwidth=700".data]) ∧
    extract_urls_from_markdown
        "[![alt](https://image.hm.com/assets/hm/x.jpg?imwidth=700)](https://p.html)" =
      .ok "https://image.hm.com/assets/hm/x.jpg" ∧
    (findImages "no image here" = [] ∧
      extract_urls_from_markdown "no image here" = .error ()) := by
  refine ⟨by decide, ?_, by decide, ?_⟩
  · have h := ((extract_image_url_spec
      "[![alt](https://image.hm.com/assets/hm/x.jpg?imwidth=700)](https://p.html)").2
      "https://image.hm.com/assets/hm/x.jpg?imwidth=700".data [] (by decide)).1
    rw [h]
    rfl
  · exact (extract_image_url_spec "no image here").1 (by decide)

/-- Maximal second component of a list of (word, count) pairs. -/
def maxSnd (l : List (String × Nat)) : Nat :=
  (l.map (fun p => p.2)).foldr max 0

theorem maxSnd_cons (b : String × Nat) (l : List (String × Nat)) :
    maxSnd (b :: l) = max b.2 (maxSnd l) := by
  simp [maxSnd]

theorem pyMaxBy_eq_find_first_max : ∀ (l : List (String × Nat)) (b : String × Nat),
    some (pyMaxBy b l) = (b :: l).find? (fun p => p.2 = maxSnd (b :: l)) := by
  intro l
  induction l with
  | nil =>
    intro b
    rw [pyMaxBy, maxSnd_cons]
    have h : max b.2 (maxSnd []) = b.2 := by simp [maxSnd]
    rw [h, List.find?_cons_of_pos _ (by simp)]
  | cons x xs ih =>
    intro b
    rw [pyMaxBy]
    by_cases hx : x.2 > b.2
    · rw [if_pos hx, ih x]
      have hbM : b.2 < maxSnd (x :: xs) := by
        rw [maxSnd_cons]
        exact lt_of_lt_of_le hx (le_max_left _ _)
      have hM : maxSnd (b :: x :: xs) = maxSnd (x :: xs) := by
        rw [maxSnd_cons, max_eq_right (le_of_lt hbM)]
      rw [hM, List.find?_cons_of_neg (x :: xs) (by simp; omega)]
    · rw [if_neg hx, ih b]
      have hx' : x.2 ≤ b.2 := by omega
      have hM : maxSnd (b :: x :: xs) = maxSnd (b :: xs) := by
        rw [maxSnd_cons, maxSnd_cons, maxSnd_cons]
        rcases le_total x.2 (maxSnd xs) with h | h
        · rw [max_eq_right h]
        · rw [max_eq_left h, max_eq_left hx', max_eq_left (le_trans h hx')]
      rw [hM]
      by_cases hb : b.2 = maxSnd (b :: xs)
      · rw [List.find?_cons_of_pos xs (by simp [hb]),
          List.find?_cons_of_pos (x :: xs) (by simp [hb])]
      · rw [List.find?_cons_of_neg xs (by simp [hb]),
          List.find?_cons_of_neg (x :: xs) (by simp [hb])]
        have hble : b.2 ≤ maxSnd (b :: xs) := by
          rw [maxSnd_cons]; exact le_max_left _ _
        rw [List.find?_cons_of_neg xs (by simp; omega)]

theorem foldr_max_attained : ∀ l : List Nat, l.foldr max 0 = 0 ∨ l.foldr max 0 ∈ l := by
  intro l
  induction l with
  | nil => left; rfl
  | cons x xs ih =>
    rw [List.foldr_cons]
    rcases ih with h | h
    · rw [h, Nat.max_zero]
      right
      exact List.mem_cons_self _ _
    · rcases le_total x (xs.foldr max 0) with hle | hle
      · rw [max_eq_right hle]
        right
        exact List.mem_cons_of_mem _ h
      · rw [max_eq_left hle]
        right
        exact List.mem_cons_self _ _

theorem foldr_max_eq_zero_iff : ∀ l : List Nat, l.foldr max 0 = 0 ↔ ∀ x ∈ l, x = 0 := by
  intro l
  induction l with
  | nil => simp
  | cons x xs ih =>
    rw [List.foldr_cons, Nat.max_eq_zero_iff]
    constructor
    · rintro ⟨hx, hr⟩ y hy
      rcases List.mem_cons.mp hy with h | h
      · subst h; exact hx
      · exact (ih.mp hr) y h
    · intro h
      exact ⟨h x (List.mem_cons_self _ _),
        ih.mpr (fun y hy => h y (List.mem_cons_of_mem _ hy))⟩

/-- C8 (amended): `count_most_frequent_word` agrees with the specification's
`classifyGender` (highest case-insensitive vocabulary count, ties broken by
the fixed vocabulary order) on the positive case, but when all five counts
are zero it returns the tuple `(None, 0)` rather than a bare null. -/
theorem count_most_frequent_word_amended (text : String) :
    (specClassifyGender text = none →
      count_most_frequent_word text = GenderOut.pairV none 0) ∧
    (∀ w, specClassifyGender text = some w →
      count_most_frequent_word text = GenderOut.strV w) := by
  have hmaxsnd : maxSnd (target_words.map
      (fun w => (w, countOcc w.data (text.data.map pyToUpper)))) =
      (target_words.map (fun w => countOcc w.data (text.data.map pyToUpper))).foldr max 0 := by
    rw [maxSnd, List.map_map]
    rfl
  by_cases hm : (target_words.map
      (fun w => countOcc w.data (text.data.map pyToUpper))).foldr max 0 = 0
  · have hz : (genderCounts text).all (fun p => p.2 = 0) = true := by
      rw [List.all_eq_true]
      intro p hp
      rcases List.mem_map.mp hp with ⟨w, hw, rfl⟩
      have := (foldr_max_eq_zero_iff _).mp hm (countOcc w.data (text.data.map pyToUpper))
        (List.mem_map.mpr ⟨w, hw, rfl⟩)
      simpa using this
    have hcode : count_most_frequent_word text = GenderOut.pairV none 0 := by
      rw [count_most_frequent_word, if_pos hz]
    have hspec : specClassifyGender text = none := by
      rw [specClassifyGender, if_pos hm]
    refine ⟨fun _ => hcode, fun w hw => ?_⟩
    rw [hspec] at hw
    cases hw
  · have hz : ¬ (genderCounts text).all (fun p => p.2 = 0) = true := by
      intro hz
      apply hm
      rw [foldr_max_eq_zero_iff]
      intro x hx
      rcases List.mem_map.mp hx with ⟨w, hw, rfl⟩
      have := List.all_eq_true.mp hz (w, countOcc w.data (text.data.map pyToUpper))
        (List.mem_map.mpr ⟨w, hw, rfl⟩)
      simpa using this
    have hspec : specClassifyGender text = target_words.find? (fun w =>
        countOcc w.data (text.data.map pyToUpper) =
          (target_words.map (fun w => countOcc w.data (text.data.map pyToUpper))).foldr
            max 0) := by
      rw [specClassifyGender, if_neg hm]
    have hshape : genderCounts text = ("DAM", countOcc "DAM".data (text.data.map pyToUpper)) ::
        ["HERR", "BARN", "HOME", "BEAUTY"].map
          (fun w => (w, countOcc w.data (text.data.map pyToUpper))) := rfl
    have hbridge := pyMaxBy_eq_find_first_max
      (["HERR", "BARN", "HOME", "BEAUTY"].map
        (fun w => (w, countOcc w.data (text.data.map pyToUpper))))
      ("DAM", countOcc "DAM".data (text.data.map pyToUpper))
    have hcc : ("DAM", countOcc "DAM".data (text.data.map pyToUpper)) ::
        ["HERR", "BARN", "HOME", "BEAUTY"].map
          (fun w => (w, countOcc w.data (text.data.map pyToUpper))) =
        target_words.map (fun w => (w, countOcc w.data (text.data.map pyToUpper))) := rfl
    rw [hcc, List.find?_map, hmaxsnd] at hbridge
    have hpred : ((fun p : String × Nat => decide (p.2 =
        (target_words.map (fun w => countOcc w.data (text.data.map pyToUpper))).foldr max 0)) ∘
          (fun w => (w, countOcc w.data (text.data.map pyToUpper)))) =
        (fun w => decide (countOcc w.data (text.data.map pyToUpper) =
          (target_words.map (fun w => countOcc w.data (text.data.map pyToUpper))).foldr
            max 0)) := by
      funext w
      rfl
    rw [hpred] at hbridge
    constructor
    · intro hw
      exfalso
      rw [hspec] at hw
      rcases foldr_max_attained (target_words.map
        (fun w => countOcc w.data (text.data.map pyToUpper))) with h0 | hmem
      · exact hm h0
      · rcases List.mem_map.mp hmem with ⟨w, hwmem, hcw⟩
        have := List.find?_eq_none.mp hw w hwmem
        rw [hcw] at this
        simp at this
    · intro w hw
      rw [hspec] at hw
      rw [hw] at hbridge
      rw [count_most_frequent_word, if_neg hz, hshape]
      show GenderOut.strV (pyMaxBy ("DAM", countOcc "DAM".data (text.data.map pyToUpper))
        (["HERR", "BARN", "HOME", "BEAUTY"].map
          (fun w => (w, countOcc w.data (text.data.map pyToUpper))))).1 = GenderOut.strV w
      have hpy := Option.some.inj hbridge
      rw [hpy]

/-- Counterexample for C8 as stated: on text with zero occurrences of every
vocabulary word the function returns the Python tuple `(None, 0)` (a truthy
pair), not a bare null. -/
theorem count_most_frequent_word_cex :
    count_most_frequent_word "xyz" = GenderOut.pairV none 0 ∧
    GenderOut.pairV none 0 ≠ GenderOut.noneV := by
  exact ⟨by decide, by decide⟩

/-- Witness for C8 (amended) at a concrete input: three occurrences of
"DAM" (case-insensitive) and one of "HERR" classify as "DAM". -/
theorem count_most_frequent_word_amended_witness :
    specClassifyGender "dam Dam DAM herr" = some "DAM" ∧
    count_most_frequent_word "dam Dam DAM herr" = GenderOut.strV "DAM" :=
  ⟨by decide, (count_most_frequent_word_amended "dam Dam DAM herr").2 "DAM" (by decide)⟩

/-- Counterexample for C5 as stated: with 3 persisted URLs, the request
`start_index = 0, end_index = 5, batch_size = 5` has bounds outside the
persisted URL count, yet the endpoint responds with HTTP 200 (carrying
`process_hm_products`' invalid-range failure dict), not 400. -/
theorem process_endpoint_cex :
    (process_endpoint_model 0 5 5 3).1 = 200 ∧ (200 : Nat) ≠ 400 ∧
    (process_endpoint_model 0 5 5 3).2 =
      ProcResponse.invalidRange "Invalid index range. Available URLs: 0-2" := by
  refine ⟨?_, by decide, ?_⟩ <;> rfl

/-- C5 (amended): `POST /process` responds 400 exactly when
`start_index < 0`, `end_index < start_index`,
`end_index - start_index + 1 > 100` (regardless of the persisted URL
count), or `batch_size` lies outside `[1, 20]`.  When those validations
pass but the bounds exceed the current persisted URL count
(`end_index ≥ urlCount`), the endpoint responds 200 with the
invalid-range failure body; otherwise 200 with the processing summary. -/
theorem process_endpoint_amended (si ei bs : Int) (c : Nat) :
    ((process_endpoint_model si ei bs c).1 = 400 ↔
      (si < 0 ∨ ei < si ∨ ei - si + 1 > 100 ∨ bs < 1 ∨ bs > 20)) ∧
    (¬ (si < 0 ∨ ei < si ∨ ei - si + 1 > 100 ∨ bs < 1 ∨ bs > 20) →
      ei ≥ (c : Int) →
      process_endpoint_model si ei bs c =
        (200, ProcResponse.invalidRange
          ("Invalid index range. Available URLs: 0-" ++ toString ((c : Int) - 1)))) ∧
    (¬ (si < 0 ∨ ei < si ∨ ei - si + 1 > 100 ∨ bs < 1 ∨ bs > 20) →
      ei < (c : Int) →
      process_endpoint_model si ei bs c = (200, ProcResponse.processed)) := by
  refine ⟨?_, ?_, ?_⟩
  · rw [process_endpoint_model]
    split
    · next h => simp; omega
    · split
      · next h1 h2 => simp; omega
      · split
        · next h1 h2 h3 => simp; omega
        · split
          · next h1 h2 h3 h4 => simp; omega
          · next h1 h2 h3 h4 => simp; omega
  · intro hok hout
    rw [process_endpoint_model, if_neg (by omega), if_neg (by omega), if_neg (by omega),
      if_pos (by omega)]
  · intro hok hin
    rw [process_endpoint_model, if_neg (by omega), if_neg (by omega), if_neg (by omega),
      if_neg (by omega)]

/-- Witness for C5 (amended) at concrete inputs: a range of 101 items is
rejected with 400 even with ample persisted URLs, and with 3 persisted URLs
the in-range request 0..2 is processed with 200. -/
theorem process_endpoint_amended_witness :
    (process_endpoint_model 0 100 5 1000).1 = 400 ∧
    ¬ ((0 : Int) < 0 ∨ (2 : Int) < 0 ∨ (2 : Int) - 0 + 1 > 100 ∨ (5 : Int) < 1 ∨ (5 : Int) > 20) ∧
    (2 : Int) < ((3 : Nat) : Int) ∧
    process_endpoint_model 0 2 5 3 = (200, ProcResponse.processed) := by
  refine ⟨?_, by decide, by decide, ?_⟩
  · exact (process_endpoint_amended 0 100 5 1000).1.mpr (by omega)
  · exact (process_endpoint_amended 0 2 5 3).2.2 (by decide) (by decide)

theorem dictGet_foldl_dictSet :
    ∀ (evs : List RecordEv) (m : List (String × String)) (k : String),
      dictGet (evs.foldl (fun acc e => dictSet acc e.articleId e.imageUrl) m) k =
        (lastRecorded evs k).or (dictGet m k) := by
  intro evs
  induction evs with
  | nil =>
    intro m k
    rw [List.foldl_nil, lastRecorded]
    simp
  | cons e evs ih =>
    intro m k
    rw [List.foldl_cons, ih (dictSet m e.articleId e.imageUrl) k, dictGet_dictSet,
      lastRecorded, lastRecorded, List.reverse_cons, List.find?_append]
    cases hfind : evs.reverse.find? (fun x => x.articleId = k) with
    | some x => rfl
    | none =>
      by_cases hk : k = e.articleId
      · rw [if_pos hk, List.find?_cons_of_pos _ (by simp [hk])]
        rfl
      · rw [if_neg hk, List.find?_cons_of_neg _ (by simp; exact fun h => hk h.symm)]
        rfl

/-- Counterexample for C10 as stated: after session s1 records
`X ↦ u1` and session s2 later records `X ↦ u2`, the pair `(X, u1)` no
longer remains in the accumulator — the key survives but its value is
overwritten. -/
theorem global_image_mapping_cex :
    dictGet (globalImageMapping
      [⟨"s1", "X", "u1"⟩, ⟨"s2", "X", "u2"⟩]) "X" = some "u2" ∧
    ("X", "u1") ∉ globalImageMapping [⟨"s1", "X", "u1"⟩, ⟨"s2", "X", "u2"⟩] := by
  exact ⟨by decide, by decide⟩

/-- C10 (amended): the process-wide image-mapping accumulator only grows
and is never cleared — every article-id ever recorded by any session since
process start remains a key of it, bound to its most recently recorded
image URL (a later record for the same key overwrites the value) — and the
upload performed at the end of a processing session sends the whole
accumulator, with pairs from all sessions (session identity is ignored),
not just the uploading session's own range. -/
theorem global_image_mapping_amended (events : List RecordEv) :
    (∀ e ∈ events, ∃ v,
      dictGet (globalImageMapping events) e.articleId = some v) ∧
    (∀ k, dictGet (globalImageMapping events) k = lastRecorded events k) ∧
    (∀ more : List RecordEv, ∀ e ∈ events, ∃ v,
      dictGet (globalImageMapping (events ++ more)) e.articleId = some v) ∧
    (globalImageMapping events = [] ∨
      sessionUploadPayload events = some (globalImageMapping events)) ∧
    (∀ s, globalImageMapping events =
      globalImageMapping (events.map (fun e => ⟨s, e.articleId, e.imageUrl⟩))) := by
  have hget : ∀ (evs : List RecordEv) (k : String),
      dictGet (globalImageMapping evs) k = lastRecorded evs k := by
    intro evs k
    rw [globalImageMapping, dictGet_foldl_dictSet evs [] k]
    rw [show dictGet ([] : List (String × String)) k = none from rfl, Option.or_none]
  have hmem_some : ∀ (evs : List RecordEv), ∀ e ∈ evs,
      ∃ v, lastRecorded evs e.articleId = some v := by
    intro evs e he
    have hex : ∃ x ∈ evs.reverse, (fun x => decide (x.articleId = e.articleId)) x = true :=
      ⟨e, List.mem_reverse.mpr he, by simp⟩
    have hsome := List.find?_isSome.mpr hex
    rcases Option.isSome_iff_exists.mp hsome with ⟨x, hx⟩
    exact ⟨x.imageUrl, by rw [lastRecorded, hx]; rfl⟩
  refine ⟨?_, hget events, ?_, ?_, ?_⟩
  · intro e he
    rw [hget]
    exact hmem_some events e he
  · intro more e he
    rw [hget]
    rcases hmem_some events e he with ⟨v, hv⟩
    rw [lastRecorded] at hv
    rw [lastRecorded, List.reverse_append, List.find?_append]
    cases hfind : more.reverse.find? (fun x => x.articleId = e.articleId) with
    | some x => exact ⟨x.imageUrl, rfl⟩
    | none =>
      cases hfind2 : events.reverse.find? (fun x => x.articleId = e.articleId) with
      | some x => exact ⟨x.imageUrl, rfl⟩
      | none =>
        rw [hfind2] at hv
        cases hv
  · by_cases hz : (globalImageMapping events).isEmpty
    · left
      exact List.isEmpty_iff.mp hz
    · right
      rw [sessionUploadPayload, if_neg hz]
  · intro s
    rw [globalImageMapping, globalImageMapping, List.foldl_map]

/-- Witness for C10 (amended) at a concrete input: two sessions record
distinct keys; both keys are present in the accumulator afterwards. -/
theorem global_image_mapping_amended_witness :
    (⟨"s1", "A", "u"⟩ : RecordEv) ∈
      [(⟨"s1", "A", "u"⟩ : RecordEv), ⟨"s2", "B", "w"⟩] ∧
    ∃ v, dictGet (globalImageMapping
      [(⟨"s1", "A", "u"⟩ : RecordEv), ⟨"s2", "B", "w"⟩]) "A" = some v :=
  ⟨by decide, (global_image_mapping_amended
    [(⟨"s1", "A", "u"⟩ : RecordEv), ⟨"s2", "B", "w"⟩]).1
    (⟨"s1", "A", "u"⟩ : RecordEv) (by decide)⟩

theorem sum_signs_partition (N : Nat) : ∀ (t : List SessEv),
    (∀ e ∈ t, sessOf e < N) →
    (t.map evSign).sum =
      ∑ i in Finset.range N, ((t.filter (fun e => sessOf e = i)).map evSign).sum := by
  intro t
  induction t with
  | nil => simp
  | cons e t ih =>
    intro h
    have he : sessOf e < N := h e (List.mem_cons_self _ _)
    have ht : ∀ x ∈ t, sessOf x < N := fun x hx => h x (List.mem_cons_of_mem _ hx)
    rw [List.map_cons, List.sum_cons, ih ht]
    have hfilter : ∀ i, (((e :: t).filter (fun x => sessOf x = i)).map evSign).sum =
        (if sessOf e = i then evSign e else 0) +
          ((t.filter (fun x => sessOf x = i)).map evSign).sum := by
      intro i
      by_cases hi : sessOf e = i
      · rw [List.filter_cons_of_pos (by simp [hi]), List.map_cons, List.sum_cons, if_pos hi]
      · rw [List.filter_cons_of_neg (by simp [hi]), if_neg hi, zero_add]
    rw [Finset.sum_congr rfl (fun i _ => hfilter i), Finset.sum_add_distrib,
      Finset.sum_ite_eq (Finset.range N) (sessOf e) (fun _ => evSign e),
      if_pos (Finset.mem_range.mpr he)]

theorem filter_take_eq_take_filter {α : Type} (p : α → Bool) :
    ∀ (t : List α) (k : Nat), ∃ j, (t.take k).filter p = (t.filter p).take j := by
  intro t
  induction t with
  | nil => intro k; exact ⟨0, by simp⟩
  | cons e t ih =>
    intro k
    cases k with
    | zero => exact ⟨0, by simp⟩
    | succ k =>
      obtain ⟨j, hj⟩ := ih k
      by_cases hp : p e
      · exact ⟨j + 1, by rw [List.take_succ_cons, List.filter_cons_of_pos hp,
          List.filter_cons_of_pos hp, List.take_succ_cons, hj]⟩
      · exact ⟨j, by rw [List.take_succ_cons, List.filter_cons_of_neg hp,
          List.filter_cons_of_neg hp, hj]⟩

theorem sum_signs_take_trace (i j : Nat) :
    0 ≤ ((([SessEv.sbegin i, SessEv.send i]).take j).map evSign).sum ∧
    ((([SessEv.sbegin i, SessEv.send i]).take j).map evSign).sum ≤ 1 := by
  match j with
  | 0 => simp
  | 1 =>
    constructor <;> simp [evSign, isBeginEv]
  | n + 2 =>
    have h : ([SessEv.sbegin i, SessEv.send i]).take (n + 2) =
        [SessEv.sbegin i, SessEv.send i] := by
      rw [List.take_succ_cons, List.take_succ_cons, List.take_nil]
    rw [h]
    constructor <;> simp [evSign, isBeginEv]

/-- C6: every `process_hm_products` call emits exactly one increment at
entry and exactly one decrement (in `finally`) on each exit path — early
invalid-range return, normal return, and exception — and therefore,
for any interleaving of `N` complete sessions, the active-session counter
returns to its initial value, and at every observation point (every prefix
of the event sequence) it stays between the initial value and the initial
value plus the number of sessions begun. -/
theorem session_counter_balanced (N : Nat) (c : Int) (paths : Nat → ExitPath)
    (t : List SessEv)
    (hsess : ∀ e ∈ t, sessOf e < N)
    (hfull : ∀ i, i < N → t.filter (fun e => sessOf e = i) =
      process_session_trace i (paths i)) :
    (∀ i p, process_session_trace i p = [SessEv.sbegin i, SessEv.send i]) ∧
    activeAfter c t = c ∧
    (∀ k, c ≤ activeAfter c (t.take k) ∧ activeAfter c (t.take k) ≤ c + N) := by
  have htrace : ∀ i p, process_session_trace i p = [SessEv.sbegin i, SessEv.send i] := by
    intro i p
    cases p <;> rfl
  have hA : ∀ (u : List SessEv) (c : Int), activeAfter c u = c + (u.map evSign).sum := by
    intro u
    induction u with
    | nil => intro c; simp [activeAfter]
    | cons e u ih =>
      intro c
      rw [activeAfter, List.foldl_cons]
      have h2 := ih (c + evSign e)
      rw [activeAfter] at h2
      rw [h2, List.map_cons, List.sum_cons]
      ring
  refine ⟨htrace, ?_, ?_⟩
  · rw [hA, sum_signs_partition N t hsess]
    have hz : ∀ i ∈ Finset.range N,
        ((t.filter (fun e => sessOf e = i)).map evSign).sum = 0 := by
      intro i hi
      rw [hfull i (Finset.mem_range.mp hi), htrace]
      simp [evSign, isBeginEv]
    rw [Finset.sum_congr rfl hz]
    simp
  · intro k
    have hsess' : ∀ e ∈ t.take k, sessOf e < N :=
      fun e he => hsess e (List.mem_of_mem_take he)
    rw [hA, sum_signs_partition N (t.take k) hsess']
    have hbounds : ∀ i ∈ Finset.range N,
        0 ≤ (((t.take k).filter (fun e => sessOf e = i)).map evSign).sum ∧
        (((t.take k).filter (fun e => sessOf e = i)).map evSign).sum ≤ 1 := by
      intro i hi
      obtain ⟨j, hj⟩ := filter_take_eq_take_filter (fun e => sessOf e = i) t k
      rw [hj, hfull i (Finset.mem_range.mp hi), htrace]
      exact sum_signs_take_trace i j
    constructor
    · have h0 : (0 : Int) ≤ ∑ i in Finset.range N,
          (((t.take k).filter (fun e => sessOf e = i)).map evSign).sum :=
        Finset.sum_nonneg (fun i hi => (hbounds i hi).1)
      omega
    · have h1 : (∑ i in Finset.range N,
          (((t.take k).filter (fun e => sessOf e = i)).map evSign).sum) ≤
          ∑ _i in Finset.range N, (1 : Int) :=
        Finset.sum_le_sum (fun i hi => (hbounds i hi).2)
      rw [Finset.sum_const, Finset.card_range] at h1
      simp at h1
      omega

/-- Witness for C6 at a concrete input: two overlapping sessions
(begin 0, begin 1, end 0, end 1) leave the counter at its initial value. -/
theorem session_counter_balanced_witness :
    (∀ e ∈ [SessEv.sbegin 0, SessEv.sbegin 1, SessEv.send 0, SessEv.send 1],
      sessOf e < 2) ∧
    (∀ i, i < 2 →
      [SessEv.sbegin 0, SessEv.sbegin 1, SessEv.send 0, SessEv.send 1].filter
        (fun e => sessOf e = i) = process_session_trace i ExitPath.normal) ∧
    activeAfter 0 [SessEv.sbegin 0, SessEv.sbegin 1, SessEv.send 0, SessEv.send 1] = 0 :=
  ⟨by decide, by decide,
    (session_counter_balanced 2 0 (fun _ => ExitPath.normal)
      [SessEv.sbegin 0, SessEv.sbegin 1, SessEv.send 0, SessEv.send 1]
      (by decide) (by decide)).2.1⟩

/-- C7: `extract_price_info` returns `(none, none, "no discount")` when the
marker-bounded section is absent or contains zero currency-formatted
prices; with exactly one price it returns it as the original with
`"no discount"`; with two or more it returns the first as discounted, the
second as original and the rounded percentage
`round((original - discounted)/original * 100)` formatted as `"N%"`,
ignoring prices beyond the second. -/
theorem extract_price_info_spec (text : String) :
    (findPriceSection text = none →
      extract_price_info text = (none, none, "no discount")) ∧
    (∀ g, findPriceSection text = some g →
      (findPrices (pyStripList g) = [] →
        extract_price_info text = (none, none, "no discount")) ∧
      (∀ p, findPrices (pyStripList g) = [p] →
        extract_price_info text = (none, some (parsePrice p), "no discount")) ∧
      (∀ p1 p2 rest, findPrices (pyStripList g) = p1 :: p2 :: rest →
        extract_price_info text =
          (some (parsePrice p1), some (parsePrice p2),
            toString (pyRound ((parsePrice p2 - parsePrice p1) / parsePrice p2 * 100))
              ++ "%"))) := by
  constructor
  · intro h
    rw [extract_price_info, h]
  · intro g hg
    refine ⟨?_, ?_, ?_⟩
    · intro h0
      simp only [extract_price_info, hg, h0]
    · intro p hp
      simp only [extract_price_info, hg, hp]
    · intro p1 p2 rest hps
      simp only [extract_price_info, hg, hps]

/-- Witness for C7 at concrete inputs: the two-price section
`"199,00 kr 399,00 kr"` yields `(199.0, 399.0, "50%")`, a single price
yields `(none, 399.0, "no discount")`, and a price-free section yields
`(none, none, "no discount")`. -/
theorem extract_price_info_spec_witness :
    findPriceSection "Inte sparat i favoriter 199,00 kr 399,00 kr ## Färg:" =
      some " 199,00 kr 399,00 kr".data ∧
    findPrices (pyStripList " 199,00 kr 399,00 kr".data) =
      ["199,00".data, "399,00".data] ∧
    extract_price_info "Inte sparat i favoriter 199,00 kr 399,00 kr ## Färg:" =
      (some 199, some 399, "50%") ∧
    extract_price_info "Inte sparat i favoriter 399,00 kr ## Färg:" =
      (none, some 399, "no discount") ∧
    extract_price_info "Inte sparat i favoriter inget pris ## Färg:" =
      (none, none, "no discount") := by
  have e199 : parsePrice "199,00".data = 199 := by
    rw [parsePrice,
      show digitsToNat ("199,00".data.takeWhile (fun c => c ≠ ',')) = 199 by decide,
      show digitsToNat ("199,00".data.drop
        (("199,00".data.takeWhile (fun c => c ≠ ',')).length + 1)) = 0 by decide]
    norm_num
  have e399 : parsePrice "399,00".data = 399 := by
    rw [parsePrice,
      show digitsToNat ("399,00".data.takeWhile (fun c => c ≠ ',')) = 399 by decide,
      show digitsToNat ("399,00".data.drop
        (("399,00".data.takeWhile (fun c => c ≠ ',')).length + 1)) = 0 by decide]
    norm_num
  have efloor : ⌊((399 : ℚ) - 199) / 399 * 100⌋ = 50 := by
    rw [Int.floor_eq_iff]
    constructor <;> norm_num
  have eround : pyRound (((399 : ℚ) - 199) / 399 * 100) = 50 := by
    rw [pyRound, efloor, if_pos (by norm_num)]
  refine ⟨by decide, by decide, ?_, ?_, ?_⟩
  · have h := ((extract_price_info_spec
      "Inte sparat i favoriter 199,00 kr 399,00 kr ## Färg:").2
      " 199,00 kr 399,00 kr".data (by decide)).2.2
      "199,00".data "399,00".data [] (by decide)
    rw [h, e199, e399, eround]
    rfl
  · have h := ((extract_price_info_spec
      "Inte sparat i favoriter 399,00 kr ## Färg:").2
      " 399,00 kr".data (by decide)).2.1
      "399,00".data (by decide)
    rw [h, e399]
  · exact ((extract_price_info_spec
      "Inte sparat i favoriter inget pris ## Färg:").2
      " inget pris".data (by decide)).1 (by decide)

theorem crawlGo_fetches_pos (url : String) (llm : LLMFn) (o : Nat → ArunOutcome)
    (r attempt : Nat) (hr : 1 ≤ r) : 1 ≤ (crawlGo url llm o attempt r).fetches := by
  obtain ⟨r', rfl⟩ : ∃ r', r = r' + 1 := ⟨r - 1, by omega⟩
  cases h0 : o attempt with
  | asuccess md =>
    cases hb : successBody url md llm with
    | ok v => simp [crawlGo, h0, hb]
    | error e =>
      by_cases h : r' = 0 <;> simp [crawlGo, h0, hb, h]
  | afail msg => by_cases h : r' = 0 <;> simp [crawlGo, h0, h]
  | araise => by_cases h : r' = 0 <;> simp [crawlGo, h0, h]

theorem range_map_shift (attempt f' : Nat) :
    (List.range (f' + 1)).map (fun k => attempt + k) =
      attempt :: (List.range f').map (fun k => attempt + 1 + k) := by
  rw [List.range_succ_eq_map, List.map_cons, List.map_map]
  have hfun : ((fun k => attempt + k) ∘ Nat.succ) = (fun k => attempt + 1 + k) := by
    funext k
    show attempt + Nat.succ k = attempt + 1 + k
    omega
  rw [hfun]
  show (attempt + 0) :: _ = attempt :: _
  rw [Nat.add_zero]

theorem crawlGo_spec (url : String) (llm : LLMFn) (o : Nat → ArunOutcome) :
    ∀ (r attempt : Nat),
    (crawlGo url llm o attempt r).fetches ≤ r ∧
    (crawlGo url llm o attempt r).sleeps =
      (((List.range ((crawlGo url llm o attempt r).fetches - 1)).map
        (fun k => attempt + k)).filter (fun i => attemptRaised url llm o i)).map
        (fun i => 2 ^ i) ∧
    ((∀ i, attempt ≤ i → i < attempt + r → attemptFailed url llm o i = true) →
      (crawlGo url llm o attempt r).result = none) ∧
    (∀ md v, 1 ≤ r → o attempt = ArunOutcome.asuccess md →
      successBody url md llm = Except.ok v →
      crawlGo url llm o attempt r = ⟨v, [], 1⟩) := by
  intro r
  induction r with
  | zero =>
    intro attempt
    refine ⟨le_rfl, by simp [crawlGo], fun _ => rfl, fun md v h1 _ _ => absurd h1 (by omega)⟩
  | succ r ih =>
    intro attempt
    cases h0 : o attempt with
    | asuccess md =>
      cases hb : successBody url md llm with
      | ok v =>
        refine ⟨by simp [crawlGo, h0, hb], by simp [crawlGo, h0, hb], ?_, ?_⟩
        · intro h
          have hf := h attempt le_rfl (by omega)
          simp [attemptFailed, h0, hb] at hf
        · intro md' v' _ hmd hv
          cases hmd
          rw [hb] at hv
          cases hv
          simp [crawlGo, h0, hb]
      | error e =>
        by_cases hz : r = 0
        · subst hz
          refine ⟨by simp [crawlGo, h0, hb], by simp [crawlGo, h0, hb], ?_, ?_⟩
          · intro _
            simp [crawlGo, h0, hb]
          · intro md' v' _ hmd hv
            cases hmd
            rw [hb] at hv
            cases hv
        · have hrun : crawlGo url llm o attempt (r + 1) =
              ⟨(crawlGo url llm o (attempt + 1) r).result,
                2 ^ attempt :: (crawlGo url llm o (attempt + 1) r).sleeps,
                (crawlGo url llm o (attempt + 1) r).fetches + 1⟩ := by
            simp [crawlGo, h0, hb, hz]
          have hres_run : (crawlGo url llm o attempt (r + 1)).result =
              (crawlGo url llm o (attempt + 1) r).result := by rw [hrun]
          have hsleeps_run : (crawlGo url llm o attempt (r + 1)).sleeps =
              2 ^ attempt :: (crawlGo url llm o (attempt + 1) r).sleeps := by rw [hrun]
          have hfetch_run : (crawlGo url llm o attempt (r + 1)).fetches =
              (crawlGo url llm o (attempt + 1) r).fetches + 1 := by rw [hrun]
          have hpos : 1 ≤ (crawlGo url llm o (attempt + 1) r).fetches :=
            crawlGo_fetches_pos url llm o r (attempt + 1) (by omega)
          obtain ⟨ihf, ihs, ihn, _⟩ := ih (attempt + 1)
          obtain ⟨f', hf'⟩ : ∃ f', (crawlGo url llm o (attempt + 1) r).fetches = f' + 1 :=
            ⟨_, (Nat.succ_pred_eq_of_pos hpos).symm⟩
          refine ⟨by rw [hfetch_run]; omega, ?_, ?_, ?_⟩
          · rw [hsleeps_run, hfetch_run, hf',
              show f' + 1 + 1 - 1 = f' + 1 from rfl, range_map_shift attempt f',
              List.filter_cons_of_pos (by simp [attemptRaised, h0, hb]), List.map_cons,
              ihs, hf', show f' + 1 - 1 = f' from rfl]
          · intro h
            rw [hres_run]
            exact ihn (fun i hi1 hi2 => h i (by omega) (by omega))
          · intro md' v' _ hmd hv
            cases hmd
            rw [hb] at hv
            cases hv
    | afail msg =>
      by_cases hz : r = 0
      · subst hz
        refine ⟨by simp [crawlGo, h0], by simp [crawlGo, h0], ?_, ?_⟩
        · intro _
          simp [crawlGo, h0]
        · intro md' v' _ hmd hv
          cases hmd
      · have hrun : crawlGo url llm o attempt (r + 1) =
            ⟨(crawlGo url llm o (attempt + 1) r).result,
              (crawlGo url llm o (attempt + 1) r).sleeps,
              (crawlGo url llm o (attempt + 1) r).fetches + 1⟩ := by
          simp [crawlGo, h0, hz]
        have hres_run : (crawlGo url llm o attempt (r + 1)).result =
            (crawlGo url llm o (attempt + 1) r).result := by rw [hrun]
        have hsleeps_run : (crawlGo url llm o attempt (r + 1)).sleeps =
            (crawlGo url llm o (attempt + 1) r).sleeps := by rw [hrun]
        have hfetch_run : (crawlGo url llm o attempt (r + 1)).fetches =
            (crawlGo url llm o (attempt + 1) r).fetches + 1 := by rw [hrun]
        have hpos : 1 ≤ (crawlGo url llm o (attempt + 1) r).fetches :=
          crawlGo_fetches_pos url llm o r (attempt + 1) (by omega)
        obtain ⟨ihf, ihs, ihn, _⟩ := ih (attempt + 1)
        obtain ⟨f', hf'⟩ : ∃ f', (crawlGo url llm o (attempt + 1) r).fetches = f' + 1 :=
          ⟨_, (Nat.succ_pred_eq_of_pos hpos).symm⟩
        refine ⟨by rw [hfetch_run]; omega, ?_, ?_, ?_⟩
        · rw [hsleeps_run, hfetch_run, hf',
            show f' + 1 + 1 - 1 = f' + 1 from rfl, range_map_shift attempt f',
            List.filter_cons_of_neg (by simp [attemptRaised, h0]),
            ihs, hf', show f' + 1 - 1 = f' from rfl]
        · intro h
          rw [hres_run]
          exact ihn (fun i hi1 hi2 => h i (by omega) (by omega))
        · intro md' v' _ hmd hv
          cases hmd
    | araise =>
      by_cases hz : r = 0
      · subst hz
        refine ⟨by simp [crawlGo, h0], by simp [crawlGo, h0], ?_, ?_⟩
        · intro _
          simp [crawlGo, h0]
        · intro md' v' _ hmd hv
          cases hmd
      · have hrun : crawlGo url llm o attempt (r + 1) =
            ⟨(crawlGo url llm o (attempt + 1) r).result,
              2 ^ attempt :: (crawlGo url llm o (attempt + 1) r).sleeps,
              (crawlGo url llm o (attempt + 1) r).fetches + 1⟩ := by
          simp [crawlGo, h0, hz]
        have hres_run : (crawlGo url llm o attempt (r + 1)).result =
            (crawlGo url llm o (attempt + 1) r).result := by rw [hrun]
        have hsleeps_run : (crawlGo url llm o attempt (r + 1)).sleeps =
            2 ^ attempt :: (crawlGo url llm o (attempt + 1) r).sleeps := by rw [hrun]
        have hfetch_run : (crawlGo url llm o attempt (r + 1)).fetches =
            (crawlGo url llm o (attempt + 1) r).fetches + 1 := by rw [hrun]
        have hpos : 1 ≤ (crawlGo url llm o (attempt + 1) r).fetches :=
          crawlGo_fetches_pos url llm o r (attempt + 1) (by omega)
        obtain ⟨ihf, ihs, ihn, _⟩ := ih (attempt + 1)
        obtain ⟨f', hf'⟩ : ∃ f', (crawlGo url llm o (attempt + 1) r).fetches = f' + 1 :=
          ⟨_, (Nat.succ_pred_eq_of_pos hpos).symm⟩
        refine ⟨by rw [hfetch_run]; omega, ?_, ?_, ?_⟩
        · rw [hsleeps_run, hfetch_run, hf',
            show f' + 1 + 1 - 1 = f' + 1 from rfl, range_map_shift attempt f',
            List.filter_cons_of_pos (by simp [attemptRaised, h0]), List.map_cons,
            ihs, hf', show f' + 1 - 1 = f' from rfl]
        · intro h
          rw [hres_run]
          exact ihn (fun i hi1 hi2 => h i (by omega) (by omega))
        · intro md' v' _ hmd hv
          cases hmd

/-- C4 (amended): with `maxRetries = 3`, `crawl_url` invokes the underlying
fetch at most 3 times; it sleeps `2^attempt` seconds (1, 2, 4, …) before
the next attempt exactly after the non-final attempts that ended in the
`except` handler (a transport/parse exception, or a raise inside the
success-path extraction) — an unsuccessful result (`result.success`
false) retries immediately with no sleep; after the final failed attempt
it returns null to the caller; and on a first-attempt success whose
extraction does not raise it returns the processed content immediately
with no further attempts and no sleeps. -/
theorem crawl_retry_amended (url : String) (llm : LLMFn) (o : Nat → ArunOutcome) :
    (crawl_url url llm o 3).fetches ≤ 3 ∧
    (crawl_url url llm o 3).sleeps =
      ((List.range ((crawl_url url llm o 3).fetches - 1)).filter
        (fun i => attemptRaised url llm o i)).map (fun i => 2 ^ i) ∧
    ((∀ i, i < 3 → attemptFailed url llm o i = true) →
      (crawl_url url llm o 3).result = none) ∧
    (∀ md v, o 0 = ArunOutcome.asuccess md → successBody url md llm = Except.ok v →
      crawl_url url llm o 3 = ⟨v, [], 1⟩) := by
  obtain ⟨hf, hs, hn, hok⟩ := crawlGo_spec url llm o 3 0
  refine ⟨hf, ?_, ?_, ?_⟩
  · have hid : ((List.range ((crawlGo url llm o 0 3).fetches - 1)).map (fun k => 0 + k)) =
        List.range ((crawlGo url llm o 0 3).fetches - 1) := by
      have hz : (fun k : Nat => 0 + k) = fun k => k := by funext k; omega
      rw [hz, List.map_id']
    simp only [crawl_url]
    rw [hs, hid]
  · intro h
    exact hn (fun i h1 h2 => h i (by omega))
  · intro md v hmd hv
    exact hok md v (by omega) hmd hv

/-- Counterexample for C4 as stated: attempt 0 returns an unsuccessful
result and a second attempt follows, yet no backoff sleep happens — the
source sleeps only in the exception handler, not on
`result.success == False`. -/
theorem crawl_retry_cex :
    (fun n => if n = 0 then ArunOutcome.afail "e" else ArunOutcome.asuccess "") 0 =
      ArunOutcome.afail "e" ∧
    (crawl_url "u" (fun _ _ _ _ _ _ => "")
      (fun n => if n = 0 then ArunOutcome.afail "e" else ArunOutcome.asuccess "") 3).fetches
      = 2 ∧
    (crawl_url "u" (fun _ _ _ _ _ _ => "")
      (fun n => if n = 0 then ArunOutcome.afail "e" else ArunOutcome.asuccess "") 3).sleeps
      = [] ∧
    (2 : Nat) ^ 0 ∉ (crawl_url "u" (fun _ _ _ _ _ _ => "")
      (fun n => if n = 0 then ArunOutcome.afail "e" else ArunOutcome.asuccess "") 3).sleeps := by
  exact ⟨rfl, by decide, by decide, by decide⟩

/-- Witness for C4 (amended) at a concrete input: all three attempts raise;
the call fetches three times, sleeps 1 then 2 seconds, and returns null. -/
theorem crawl_retry_amended_witness :
    (∀ i, i < 3 →
      attemptFailed "u" (fun _ _ _ _ _ _ => "") (fun _ => ArunOutcome.araise) i = true) ∧
    (crawl_url "u" (fun _ _ _ _ _ _ => "") (fun _ => ArunOutcome.araise) 3).result = none ∧
    (crawl_url "u" (fun _ _ _ _ _ _ => "") (fun _ => ArunOutcome.araise) 3).sleeps = [1, 2] := by
  refine ⟨by decide, ?_, by decide⟩
  exact (crawl_retry_amended "u" (fun _ _ _ _ _ _ => "")
    (fun _ => ArunOutcome.araise)).2.2.1 (by decide)

theorem charListLe_total : ∀ a b : List Char, charListLe a b = true ∨ charListLe b a = true
  | [], _ => Or.inl rfl
  | _ :: _, [] => Or.inr rfl
  | a :: as, b :: bs => by
    by_cases hab : a < b
    · left
      rw [charListLe, if_pos hab]
    · by_cases hba : b < a
      · right
        rw [charListLe, if_pos hba]
      · have hEq : a = b := le_antisymm (not_lt.mp hba) (not_lt.mp hab)
        subst hEq
        rcases charListLe_total as bs with h | h
        · left
          rw [charListLe, if_neg hab, if_neg hab]
          exact h
        · right
          rw [charListLe, if_neg hab, if_neg hab]
          exact h

theorem charListLe_antisymm : ∀ a b : List Char,
    charListLe a b = true → charListLe b a = true → a = b
  | [], [], _, _ => rfl
  | [], _ :: _, _, h2 => by cases h2
  | _ :: _, [], h1, _ => by cases h1
  | a :: as, b :: bs, h1, h2 => by
    by_cases hab : a < b
    · rw [charListLe, if_neg (asymm hab), if_pos hab] at h2
      cases h2
    · by_cases hba : b < a
      · rw [charListLe, if_neg hab, if_pos hba] at h1
        cases h1
      · have hEq : a = b := le_antisymm (not_lt.mp hba) (not_lt.mp hab)
        subst hEq
        rw [charListLe, if_neg hab, if_neg hab] at h1 h2
        rw [charListLe_antisymm as bs h1 h2]

theorem charListLe_trans : ∀ a b c : List Char,
    charListLe a b = true → charListLe b c = true → charListLe a c = true
  | [], _, _, _, _ => rfl
  | _ :: _, [], _, h1, _ => by cases h1
  | _ :: _, _ :: _, [], _, h2 => by cases h2
  | a :: as, b :: bs, c :: cs, h1, h2 => by
    by_cases hab : a < b
    · by_cases hbc : b < c
      · rw [charListLe, if_pos (lt_trans hab hbc)]
      · by_cases hcb : c < b
        · rw [charListLe, if_neg (asymm hcb), if_pos hcb] at h2
          cases h2
        · have hEq : b = c := le_antisymm (not_lt.mp hcb) (not_lt.mp hbc)
          subst hEq
          rw [charListLe, if_pos hab]
    · by_cases hba : b < a
      · rw [charListLe, if_neg hab, if_pos hba] at h1
        cases h1
      · have hEq : a = b := le_antisymm (not_lt.mp hba) (not_lt.mp hab)
        subst hEq
        by_cases hbc : a < c
        · rw [charListLe, if_pos hbc]
        · by_cases hcb : c < a
          · rw [charListLe, if_neg (asymm hcb), if_pos hcb] at h2
            cases h2
          · have hEq2 : a = c := le_antisymm (not_lt.mp hcb) (not_lt.mp hbc)
            subst hEq2
            rw [charListLe, if_neg hbc, if_neg hbc] at h2 ⊢
            rw [charListLe, if_neg hbc, if_neg hbc] at h1
            exact charListLe_trans as bs cs h1 h2

instance : IsTotal String (fun a b => pyStrLe a b = true) :=
  ⟨fun a b => charListLe_total a.data b.data⟩

instance : IsTrans String (fun a b => pyStrLe a b = true) :=
  ⟨fun a b c h1 h2 => charListLe_trans a.data b.data c.data h1 h2⟩

instance : IsAntisymm String (fun a b => pyStrLe a b = true) :=
  ⟨fun a b h1 h2 => by
    cases a with
    | mk d1 =>
      cases b with
      | mk d2 => exact congrArg String.mk (charListLe_antisymm d1 d2 h1 h2)⟩

theorem head?_append_left {α : Type} (l m : List α) (h : l ≠ []) :
    (l ++ m).head? = l.head? := by
  cases l with
  | nil => exact absurd rfl h
  | cons c t => rfl

theorem getLast?_append_right {α : Type} (l m : List α) (h : m ≠ []) :
    (l ++ m).getLast? = m.getLast? := by
  rw [← List.head?_reverse, ← List.head?_reverse, List.reverse_append,
    head?_append_left _ _ (by simpa using h)]

theorem joinNlData_ne_nil (d : List Char) (rest : List (List Char)) (hd : d ≠ []) :
    joinNlData (d :: rest) ≠ [] := by
  cases rest with
  | nil => exact hd
  | cons d2 rs =>
    rw [joinNlData]
    intro h
    rcases List.append_eq_nil.mp h with ⟨h1, _⟩
    exact hd h1

theorem joinNlData_head? (d : List Char) (rest : List (List Char)) (hd : d ≠ []) :
    (joinNlData (d :: rest)).head? = d.head? := by
  cases rest with
  | nil => rfl
  | cons d2 rs =>
    rw [joinNlData, head?_append_left _ _ hd]

theorem joinNlData_getLast? : ∀ (ld : List (List Char)),
    (∀ l ∈ ld, l ≠ []) → ld ≠ [] →
    ∃ dlast ∈ ld, (joinNlData ld).getLast? = dlast.getLast? := by
  intro ld
  induction ld with
  | nil => intro _ h; exact absurd rfl h
  | cons d rest ih =>
    intro hne _
    cases rest with
    | nil => exact ⟨d, List.mem_cons_self _ _, rfl⟩
    | cons d2 rs =>
      obtain ⟨dlast, hmem, hlast⟩ := ih
        (fun l hl => hne l (List.mem_cons_of_mem _ hl)) (by simp)
      refine ⟨dlast, List.mem_cons_of_mem _ hmem, ?_⟩
      rw [joinNlData, getLast?_append_right _ _ (by simp),
        show ('\n' :: joinNlData (d2 :: rs)) = ['\n'] ++ joinNlData (d2 :: rs) from rfl,
        getLast?_append_right _ _
          (joinNlData_ne_nil d2 rs (hne d2 (List.mem_cons_of_mem _ (List.mem_cons_self _ _))))]
      exact hlast

theorem dropWhile_eq_self_of_head {α : Type} (p : α → Bool) (l : List α)
    (h : ∀ c, l.head? = some c → ¬ p c = true) : l.dropWhile p = l := by
  cases l with
  | nil => rfl
  | cons c t =>
    rw [List.dropWhile_cons, if_neg (h c rfl)]

theorem pyStripList_eq_self (l : List Char)
    (h1 : ∀ c, l.head? = some c → ¬ pyIsSpace c = true)
    (h2 : ∀ c, l.getLast? = some c → ¬ pyIsSpace c = true) :
    pyStripList l = l := by
  rw [pyStripList, dropWhile_eq_self_of_head _ l h1,
    dropWhile_eq_self_of_head _ l.reverse
      (fun c hc => h2 c (by rwa [List.head?_reverse] at hc)),
    List.reverse_reverse]

theorem splitNlData_no_nl (l : List Char) (h : '\n' ∉ l) : splitNlData l = [l] := by
  induction l with
  | nil => rfl
  | cons c t ih =>
    have hc : ¬ c = '\n' := fun hcc => h (hcc ▸ List.mem_cons_self _ _)
    rw [splitNlData, if_neg hc, ih (fun hm => h (List.mem_cons_of_mem _ hm))]

theorem splitNlData_ne_nil : ∀ l : List Char, splitNlData l ≠ []
  | [] => by simp [splitNlData]
  | c :: t => by
    rw [splitNlData]
    by_cases hc : c = '\n'
    · simp [hc]
    · rw [if_neg hc]
      cases hsp : splitNlData t with
      | nil => exact absurd hsp (splitNlData_ne_nil t)
      | cons g gs => simp

theorem splitNlData_append (l r : List Char) (h : '\n' ∉ l) :
    splitNlData (l ++ '\n' :: r) = l :: splitNlData r := by
  induction l with
  | nil => rw [List.nil_append, splitNlData, if_pos rfl]
  | cons c t ih =>
    have hc : ¬ c = '\n' := fun hcc => h (hcc ▸ List.mem_cons_self _ _)
    rw [List.cons_append, splitNlData, if_neg hc,
      ih (fun hm => h (List.mem_cons_of_mem _ hm))]

theorem splitNlData_joinNlData : ∀ (ld : List (List Char)), ld ≠ [] →
    (∀ l ∈ ld, '\n' ∉ l) → splitNlData (joinNlData ld) = ld := by
  intro ld
  induction ld with
  | nil => intro h; exact absurd rfl h
  | cons d rest ih =>
    intro _ hnl
    cases rest with
    | nil => exact splitNlData_no_nl d (hnl d (List.mem_cons_self _ _))
    | cons d2 rs =>
      rw [joinNlData, splitNlData_append _ _ (hnl d (List.mem_cons_self _ _)),
        ih (by simp) (fun l hl => hnl l (List.mem_cons_of_mem _ hl))]

theorem wfUrl_props (u : String) (hwf : wfUrl u = true) (hne : u.data ≠ []) :
    '\n' ∉ u.data ∧
    (∀ c, u.data.head? = some c → ¬ pyIsSpace c = true) ∧
    (∀ c, u.data.getLast? = some c → ¬ pyIsSpace c = true) := by
  rw [wfUrl] at hwf
  have hie : u.data.isEmpty = false := by
    cases hd : u.data with
    | nil => exact absurd hd hne
    | cons c t => rfl
  rw [hie, Bool.false_or, Bool.and_eq_true, Bool.and_eq_true] at hwf
  obtain ⟨⟨hnl, hhead⟩, hlast⟩ := hwf
  refine ⟨by simpa using hnl, ?_, ?_⟩
  · intro c hc
    have hh : u.data.headD 'x' = c := by
      cases hd : u.data with
      | nil => rw [hd] at hc; cases hc
      | cons a t =>
        rw [hd] at hc
        cases hc
        rfl
    rw [hh] at hhead
    simpa using hhead
  · intro c hc
    have hh : u.data.getLastD 'x' = c := by
      rw [List.getLastD_eq_getLast?, hc]
      rfl
    rw [hh] at hlast
    simpa using hlast

theorem parseUrlState_serializeUrls (l : List String) (hnd : l.Nodup)
    (hwf : ∀ u ∈ l, wfUrl u = true) (hnb : ∀ u ∈ l, u ≠ "") :
    parseUrlState (some (serializeUrls l)) =
      l.insertionSort (fun a b => pyStrLe a b = true) := by
  have hperm : List.Perm (l.insertionSort (fun a b => pyStrLe a b = true)) l :=
    List.perm_insertionSort _ l
  cases hl : l.insertionSort (fun a b => pyStrLe a b = true) with
  | nil =>
    rw [hl] at hperm
    have hln : l = [] := hperm.symm.eq_nil
    subst hln
    rfl
  | cons s0 srest =>
    rw [hl] at hperm
    have hmem : ∀ u ∈ s0 :: srest, u ∈ l := fun u hu => hperm.mem_iff.mp hu
    have hwf' : ∀ u ∈ s0 :: srest, wfUrl u = true := fun u hu => hwf u (hmem u hu)
    have hnb' : ∀ u ∈ s0 :: srest, u ≠ "" := fun u hu => hnb u (hmem u hu)
    have hdata_ne : ∀ d ∈ (s0 :: srest).map String.data, d ≠ [] := by
      intro d hd
      rcases List.mem_map.mp hd with ⟨u, hu, rfl⟩
      intro hdn
      apply hnb' u hu
      cases u with
      | mk ud =>
        cases hdn
        rfl
    have hnl : ∀ d ∈ (s0 :: srest).map String.data, '\n' ∉ d := by
      intro d hd
      rcases List.mem_map.mp hd with ⟨u, hu, rfl⟩
      exact (wfUrl_props u (hwf' u hu)
        (hdata_ne u.data (List.mem_map.mpr ⟨u, hu, rfl⟩))).1
    have hs0ne : s0.data ≠ [] :=
      hdata_ne s0.data (List.mem_map.mpr ⟨s0, List.mem_cons_self _ _, rfl⟩)
    have hjoin_ne : joinNlData ((s0 :: srest).map String.data) ≠ [] := by
      rw [List.map_cons]
      exact joinNlData_ne_nil _ _ hs0ne
    have hstrip : pyStripList (joinNlData ((s0 :: srest).map String.data)) =
        joinNlData ((s0 :: srest).map String.data) := by
      apply pyStripList_eq_self
      · intro c hc
        rw [List.map_cons, joinNlData_head? _ _ hs0ne] at hc
        exact (wfUrl_props s0 (hwf' s0 (List.mem_cons_self _ _)) hs0ne).2.1 c hc
      · intro c hc
        obtain ⟨dlast, hdmem, hdl⟩ := joinNlData_getLast?
          ((s0 :: srest).map String.data) hdata_ne (by simp)
        rw [hdl] at hc
        rcases List.mem_map.mp hdmem with ⟨u, hu, rfl⟩
        exact (wfUrl_props u (hwf' u hu) (hdata_ne u.data hdmem)).2.2 c hc
    have hps : pyStrip (String.mk (joinNlData ((s0 :: srest).map String.data))) =
        String.mk (joinNlData ((s0 :: srest).map String.data)) := by
      rw [pyStrip]
      exact congrArg String.mk hstrip
    rw [serializeUrls, hl, parseUrlState, hps, if_neg (by
      intro h
      apply hjoin_ne
      have hd := congrArg String.data h
      simpa using hd)]
    rw [show (String.mk (joinNlData ((s0 :: srest).map String.data))).data =
      joinNlData ((s0 :: srest).map String.data) from rfl]
    rw [splitNlData_joinNlData _ (by simp) hnl, List.map_map]
    have hid : (String.mk ∘ String.data) = id := by
      funext u
      cases u
      rfl
    rw [hid, List.map_id]
    exact List.dedup_eq_self.mpr (hperm.nodup_iff.mpr hnd)

theorem serializeUrls_congr (l1 l2 : List String) (h1 : l1.Nodup) (h2 : l2.Nodup)
    (hmem : ∀ x, x ∈ l1 ↔ x ∈ l2) : serializeUrls l1 = serializeUrls l2 := by
  have hperm : List.Perm l1 l2 := (List.perm_ext_iff_of_nodup h1 h2).mpr hmem
  have hp : List.Perm (l1.insertionSort (fun a b => pyStrLe a b = true))
      (l2.insertionSort (fun a b => pyStrLe a b = true)) :=
    (List.perm_insertionSort _ l1).trans (hperm.trans (List.perm_insertionSort _ l2).symm)
  have hs1 := List.sorted_insertionSort (fun a b => pyStrLe a b = true) l1
  have hs2 := List.sorted_insertionSort (fun a b => pyStrLe a b = true) l2
  rw [serializeUrls, serializeUrls, List.eq_of_perm_of_sorted hp hs1 hs2]

theorem upload_urls_single (A : List String) (st : Option String) (hA : A ≠ []) :
    upload_urls_to_gcs A st =
      some (serializeUrls (((parseUrlState st ++ A).dedup).filter
        (fun u => pyStrip u ≠ ""))) := by
  rw [upload_urls_to_gcs, if_neg (by simpa using hA)]

theorem upload_two (st : Option String) (A B : List String) (hAne : A ≠ [])
    (hA : ∀ u ∈ A, wfUrl u = true) (hB : ∀ u ∈ B, wfUrl u = true)
    (hS : ∀ u ∈ parseUrlState st, wfUrl u = true) :
    upload_urls_to_gcs B (upload_urls_to_gcs A st) =
      some (serializeUrls (((parseUrlState st ++ A ++ B).dedup).filter
        (fun u => pyStrip u ≠ ""))) := by
  rw [upload_urls_single A st hAne]
  by_cases hBne : B = []
  · subst hBne
    rw [upload_urls_to_gcs, if_pos List.isEmpty_nil,
      List.append_nil]
  · have hnd1 : (((parseUrlState st ++ A).dedup).filter
        (fun u => pyStrip u ≠ "")).Nodup := (List.nodup_dedup _).filter _
    have hwf1 : ∀ u ∈ ((parseUrlState st ++ A).dedup).filter
        (fun u => pyStrip u ≠ ""), wfUrl u = true := by
      intro u hu
      have hm := (List.mem_filter.mp hu).1
      rcases List.mem_append.mp (List.mem_dedup.mp hm) with h | h
      · exact hS u h
      · exact hA u h
    have hnb1 : ∀ u ∈ ((parseUrlState st ++ A).dedup).filter
        (fun u => pyStrip u ≠ ""), u ≠ "" := by
      intro u hu hue
      have hf := (List.mem_filter.mp hu).2
      subst hue
      exact (of_decide_eq_true hf) rfl
    rw [upload_urls_single B _ hBne,
      parseUrlState_serializeUrls _ hnd1 hwf1 hnb1]
    refine congrArg some (serializeUrls_congr _ _
      ((List.nodup_dedup _).filter _) ((List.nodup_dedup _).filter _) ?_)
    intro x
    rw [List.mem_filter, List.mem_filter, List.mem_dedup, List.mem_dedup,
      List.mem_append, List.mem_append, List.mem_append,
      (List.perm_insertionSort (fun a b => pyStrLe a b = true) _).mem_iff,
      List.mem_filter, List.mem_dedup, List.mem_append]
    constructor
    · rintro ⟨h1 | h1, h2⟩
      · exact ⟨Or.inl h1.1, h2⟩
      · exact ⟨Or.inr h1, h2⟩
    · rintro ⟨h1 | h1, h2⟩
      · exact ⟨Or.inl ⟨h1, h2⟩, h2⟩
      · exact ⟨Or.inr h1, h2⟩

/-- C1 (amended): for URL lists `A` and `B` whose entries are well-formed
(no embedded newline, no leading or trailing whitespace) written in either
order over an existing persisted state whose parsed entries are likewise
well-formed, the final persisted content is the deterministic serialization
— deduplicated, blank entries removed, sorted, newline-joined — of the set
union `S ∪ A ∪ B`; and when the remote object does not exist the operation
treats the existing state as the empty set rather than failing. -/
theorem urlset_merge_union (st : Option String) (A B : List String)
    (hAB : A ≠ [] ∨ B ≠ [])
    (hA : ∀ u ∈ A, wfUrl u = true) (hB : ∀ u ∈ B, wfUrl u = true)
    (hS : ∀ u ∈ parseUrlState st, wfUrl u = true) :
    upload_urls_to_gcs B (upload_urls_to_gcs A st) =
      some (serializeUrls (((parseUrlState st ++ A ++ B).dedup).filter
        (fun u => pyStrip u ≠ ""))) ∧
    upload_urls_to_gcs A (upload_urls_to_gcs B st) =
      some (serializeUrls (((parseUrlState st ++ A ++ B).dedup).filter
        (fun u => pyStrip u ≠ ""))) ∧
    (A ≠ [] → upload_urls_to_gcs A none = upload_urls_to_gcs A (some "")) := by
  have hswap : serializeUrls (((parseUrlState st ++ B ++ A).dedup).filter
      (fun u => pyStrip u ≠ "")) =
      serializeUrls (((parseUrlState st ++ A ++ B).dedup).filter
        (fun u => pyStrip u ≠ "")) := by
    refine serializeUrls_congr _ _
      ((List.nodup_dedup _).filter _) ((List.nodup_dedup _).filter _) ?_
    intro x
    rw [List.mem_filter, List.mem_filter, List.mem_dedup, List.mem_dedup,
      List.mem_append, List.mem_append, List.mem_append, List.mem_append]
    tauto
  refine ⟨?_, ?_, ?_⟩
  · by_cases hAne : A = []
    · subst hAne
      have hBne : B ≠ [] := by tauto
      rw [show upload_urls_to_gcs ([] : List String) st = st from by
        rw [upload_urls_to_gcs]; rfl]
      rw [upload_urls_single B st hBne]
      rw [show parseUrlState st ++ [] ++ B = parseUrlState st ++ B by
        rw [List.append_nil]]
    · exact upload_two st A B hAne hA hB hS
  · by_cases hBne : B = []
    · subst hBne
      have hAne : A ≠ [] := by tauto
      rw [show upload_urls_to_gcs ([] : List String) st = st from by
        rw [upload_urls_to_gcs]; rfl]
      rw [upload_urls_single A st hAne]
      rw [show parseUrlState st ++ A ++ ([] : List String) = parseUrlState st ++ A from
        List.append_nil _]
    · rw [upload_two st B A hBne hB hA hS, hswap]
  · intro hAne
    rw [upload_urls_single A none hAne, upload_urls_single A (some "") hAne]
    rfl

/-- Counterexample for C1 as stated: with A = {" x"} (a URL carrying a
leading space) and B = {"b"}, the store's strip-on-download turns " x"
into "x", so the final persisted content is "b\nx" rather than the
serialization " x\nb" of S ∪ A ∪ B. -/
theorem urlset_merge_cex :
    upload_urls_to_gcs ["b"] (upload_urls_to_gcs [" x"] none) = some "b\nx" ∧
    serializeUrls (((parseUrlState none ++ [" x"] ++ ["b"]).dedup).filter
      (fun u => pyStrip u ≠ "")) = " x\nb" ∧
    some ("b\nx" : String) ≠ some (" x\nb" : String) := by
  exact ⟨by decide, by decide, by decide⟩

/-- Witness for C1 (amended) at a concrete input: existing state "b",
writes {"a"} and {"c"} in both orders, final content "a\nb\nc". -/
theorem urlset_merge_union_witness :
    ((["a"] : List String) ≠ [] ∨ (["c"] : List String) ≠ []) ∧
    (∀ u ∈ ["a"], wfUrl u = true) ∧ (∀ u ∈ ["c"], wfUrl u = true) ∧
    (∀ u ∈ parseUrlState (some "b"), wfUrl u = true) ∧
    upload_urls_to_gcs ["c"] (upload_urls_to_gcs ["a"] (some "b")) = some "a\nb\nc" ∧
    upload_urls_to_gcs ["a"] (upload_urls_to_gcs ["c"] (some "b")) = some "a\nb\nc" := by
  have h := urlset_merge_union (some "b") ["a"] ["c"]
    (Or.inl (by decide)) (by decide) (by decide) (by decide)
  refine ⟨Or.inl (by decide), by decide, by decide, by decide, ?_, ?_⟩
  · rw [h.1]
    decide
  · rw [h.2.1]
    decide
